import Mathlib

/-!
# Desktop/Mobile sync, mobile side (`QGCSyncFilesMobile.cc`)

A shallow embedding of the mobile implementation of the file synchronisation
protocol: the two upload workers (`QGCLogUploadWorker::doLogSync`,
`QGCMapUploadWorker::doMapSync`) and the slots of `QGCSyncFilesMobile` that the
desktop peer calls.

Conventions of the embedding
* `QByteArray` is a list of bytes, `QString` a list of characters.
* `quint64` arithmetic is arithmetic on `Nat` reduced modulo `2 ^ 64`.
* The cancellation flag is owned by the controller and written by the peer, so a
  worker only *observes* it.  A worker run is therefore a function of an oracle
  `cancel : Nat → Bool`, the value returned by the `k`-th call of
  `_pSync->cancel()` made by that run.
* A worker run is returned as the trace of what it did, in program order.
-/

namespace QGCSync

abbrev QByteArray := List (Fin 256)

abbrev QString := List Char

/-- The read size `1024 * 1024` of both upload loops. -/
def kChunk : Nat := 1024 * 1024

/-- The size `5 * 1024 * 1024` above which the upload loops pause. -/
def kThrottleMin : Nat := 5 * 1024 * 1024

/-- Reduction of a natural number to the range of `quint64`. -/
def quint64 (n : Nat) : Nat := n % 2 ^ 64

/-- Model of `QFileInfo::fileName()`: the part of a path after its last `/`. -/
def fileName : QString → QString
  | [] => []
  | c :: cs => if cs.contains '/' then fileName cs else if c = '/' then cs else c :: cs

/-- Model of `QGCLogFragment(name, current, total, data)`. -/
structure QGCLogFragment where
  name : QString
  current : Nat
  total : Nat
  data : QByteArray
deriving DecidableEq, Repr

/-- Model of `QGCMapFragment(current, total, data, progress)`. -/
structure QGCMapFragment where
  current : Nat
  total : Nat
  data : QByteArray
  progress : Int
deriving DecidableEq, Repr

/-- What a worker run does, one entry per observable action, in program order. -/
inductive WorkerEvent (F : Type) where
  /-- a call of `_pSync->cancel()` and the value it returned -/
  | cancelCheck (seen : Bool)
  /-- The call `f.open(QIODevice::ReadOnly)` and whether it succeeded -/
  | opened (ok : Bool)
  /-- The call `f.read(1024 * 1024)` and the bytes it returned -/
  | read (bytes : QByteArray)
  /-- The action `emit logFragment(..)` / `emit mapFragment(..)` -/
  | fragment (f : F)
  /-- The action `QThread::msleep(ms)` -/
  | msleep (ms : Nat)
  /-- The action `emit done()` -/
  | done
deriving DecidableEq, Repr

/-- The fragments emitted in a trace, in order. -/
def fragmentsOf {F : Type} (t : List (WorkerEvent F)) : List F :=
  t.filterMap fun e => match e with
    | .fragment f => some f
    | _ => none

/-- The reads performed in a trace, in order. -/
def readsOf {F : Type} (t : List (WorkerEvent F)) : List QByteArray :=
  t.filterMap fun e => match e with
    | .read b => some b
    | _ => none

/-- Number of `msleep` calls in a trace. -/
def pausesOf {F : Type} (t : List (WorkerEvent F)) : Nat :=
  (t.filter fun e => match e with
    | .msleep _ => true
    | _ => false).length

/-- Number of `done` signals in a trace. -/
def donesOf {F : Type} (t : List (WorkerEvent F)) : Nat :=
  (t.filter fun e => match e with
    | .done => true
    | _ => false).length

/-- The throttle pause
`for(int i = 0; i < 10; i++) { QThread::msleep(10); if(_pSync->cancel()) break; }`
with `n` iterations left; `k` is the index of the next flag observation.  Returns
the trace and the index of the next observation after the pause. -/
def throttle {F : Type} (cancel : Nat → Bool) : Nat → Nat → List (WorkerEvent F) × Nat
  | 0, k => ([], k)
  | n + 1, k =>
    if cancel k then ([.msleep 10, .cancelCheck true], k + 1)
    else
      let r := throttle cancel n (k + 1)
      (.msleep 10 :: .cancelCheck false :: r.1, r.2)

/-- The `while(true)` loop shared by `doLogSync` and `doMapSync` (the second says
"See above in doLogSync()").  `mk sofar bytes segment` builds the fragment to
emit, `reads` are the results of the successive `f.read(1024 * 1024)` calls (a
read past the end of the list returns no bytes), `sofar` is the `quint64`
counter, `segment` the `int` counter of `doMapSync` (unused by `doLogSync`). -/
def sendLoop {F : Type} (mk : Nat → QByteArray → Int → F) (total : Nat) (cancel : Nat → Bool) :
    List QByteArray → Nat → Int → Nat → List (WorkerEvent F) × Nat
  | [], _, _, k =>
    if cancel k then ([.cancelCheck true], k + 1)
    else ([.cancelCheck false, .read []], k + 1)
  | bytes :: rest, sofar, segment, k =>
    if cancel k then ([.cancelCheck true], k + 1)
    else if bytes.length ≠ 0 then
      let sofar1 := quint64 (sofar + bytes.length)
      let emitted : List (WorkerEvent F) :=
        [.cancelCheck false, .read bytes, .fragment (mk sofar1 bytes segment)]
      if sofar1 ≥ total then (emitted, k + 1)
      else
        let pause : List (WorkerEvent F) × Nat :=
          if total > kThrottleMin ∧ bytes.length = kChunk then throttle cancel 10 (k + 1)
          else ([], k + 1)
        let r := sendLoop mk total cancel rest sofar1 (segment + 1) pause.2
        (emitted ++ pause.1 ++ r.1, r.2)
    else ([.cancelCheck false, .read bytes], k + 1)

/-- What `QFileInfo`/`QFile` report for one path handed to a worker: whether
`open(ReadOnly)` succeeds, `QFileInfo::size()`, and the results of the successive
`read(1024 * 1024)` calls. -/
structure SourceFile where
  filePath : QString
  opens : Bool
  size : Nat
  reads : List QByteArray
deriving DecidableEq, Repr

/-- The `foreach(QString logFile, logsToSend)` loop of `doLogSync`. -/
def logSyncLoop (cancel : Nat → Bool) :
    List SourceFile → Nat → List (WorkerEvent QGCLogFragment) × Nat
  | [], k => ([], k)
  | f :: rest, k =>
    if cancel k then ([.cancelCheck true], k + 1)
    else if !f.opens then
      ([.cancelCheck false, .opened false, .fragment ⟨fileName f.filePath, 0, 0, []⟩], k + 1)
    else
      let r := sendLoop (fun sofar bytes _ => QGCLogFragment.mk (fileName f.filePath) sofar
        (quint64 f.size) bytes) (quint64 f.size) cancel f.reads 0 0 (k + 1)
      let r2 := logSyncLoop cancel rest r.2
      (.cancelCheck false :: .opened true :: r.1 ++ r2.1, r2.2)

/-- Model of `QGCLogUploadWorker::doLogSync(QStringList logsToSend)`. -/
def doLogSync (logsToSend : List SourceFile) (cancel : Nat → Bool) :
    List (WorkerEvent QGCLogFragment) :=
  let r := logSyncLoop cancel logsToSend 0
  r.1 ++ [.cancelCheck (cancel r.2), .done]

/-- Model of `QGCMapUploadWorker::doMapSync(QTemporaryFile* mapFile)`; `none` is the null
pointer.  The first component of the inner result is the trace, the second the
next observation index, the third the local `error`. -/
def doMapSync (mapFile : Option SourceFile) (cancel : Nat → Bool) :
    List (WorkerEvent QGCMapFragment) :=
  let body : List (WorkerEvent QGCMapFragment) × Nat × Bool :=
    match mapFile with
    | none => ([], 0, true)
    | some f =>
      if quint64 f.size = 0 then ([], 0, true)
      else if !f.opens then ([.opened false], 0, true)
      else
        let r := sendLoop (fun sofar bytes segment => QGCMapFragment.mk sofar (quint64 f.size)
          bytes segment) (quint64 f.size) cancel f.reads 0 0 0
        (.opened true :: r.1, r.2, false)
  let tail : List (WorkerEvent QGCMapFragment) :=
    if cancel body.2.1 then [.cancelCheck true]
    else if body.2.2 then [.cancelCheck false, .fragment ⟨0, 0, [], 0⟩]
    else [.cancelCheck false]
  body.1 ++ tail ++ [.done]

/-- The results of the successive `read(1024 * 1024)` calls on a file whose
content does not change while it is read, up to the end of the file: the `k`-th
call returns the `k`-th slice of `1024 * 1024` bytes. -/
def sequentialReads (content : QByteArray) : List QByteArray :=
  (List.range ((content.length + kChunk - 1) / kChunk)).map fun k =>
    (content.drop (k * kChunk)).take kChunk

/-! ## The controller `QGCSyncFilesMobile` -/

/-- The constant `kMissionExtension`. -/
def kMissionExtension : QString := ".plan".toList

/-- The constant `kMissionWildCard`. -/
def kMissionWildCard : QString := "*.plan".toList

/-- The literal `"*.tlog"` of the two log scans. -/
def kLogWildCard : QString := "*.tlog".toList

/-- Model of `QString::endsWith`. -/
def endsWith (s suffix : QString) : Bool := suffix.isSuffixOf s

/-- Model of `QString::replace(before, after)` for a non-empty `before`: every occurrence
of `before`, found left to right without overlap, is replaced by `after`.  The
first argument counts the characters of a match still to be skipped. -/
def replaceFrom (before after : QString) : Nat → QString → QString
  | _, [] => []
  | skip + 1, _ :: cs => replaceFrom before after skip cs
  | 0, c :: cs =>
    if before.isPrefixOf (c :: cs) then after ++ replaceFrom before after (before.length - 1) cs
    else c :: replaceFrom before after 0 cs

/-- Model of `QString::replace(before, after)`. -/
def replace (s before after : QString) : QString := replaceFrom before after 0 s

/-- A regular file on disk. -/
structure DiskFile where
  filePath : QString
  data : QByteArray
deriving DecidableEq, Repr

/-- The regular files on disk. -/
abbrev FileSystem := List DiskFile

/-- Model of `QFile::exists()`. -/
def fileExists (fs : FileSystem) (path : QString) : Bool := fs.any fun f => f.filePath == path

/-- Effect of `QFile::open(WriteOnly)` followed by `write(data)`: the file is
created or truncated and holds `data`. -/
def writeFile (fs : FileSystem) (path : QString) (data : QByteArray) : FileSystem :=
  if fileExists fs path then fs.map fun f => if f.filePath == path then { f with data := data } else f
  else fs ++ [⟨path, data⟩]

/-- Services the controller takes from outside this file: the settings paths,
the matching of a `QDir` name filter against a file name, whether a given
`open(ReadOnly)`, `open(WriteOnly)` or `remove()` succeeds, whether `QTemporaryFile::open()`
succeeds, and the names of the cached tile sets. -/
structure Env where
  missionSavePath : QString
  telemetrySavePath : QString
  nameFilter : QString → QString → Bool
  canRead : QString → Bool
  canWrite : QString → Bool
  canRemove : QString → Bool
  tempOpens : Bool
  tileSets : List QString

/-- Model of `QFile::remove()`. -/
def removeFile (env : Env) (fs : FileSystem) (path : QString) : FileSystem :=
  if env.canRemove path then fs.filter fun f => f.filePath != path else fs

/-- The directory part of a path, up to and including its last `/`. -/
def dirPart : QString → QString
  | [] => []
  | c :: cs => if (c :: cs).contains '/' then c :: dirPart cs else []

/-- A directory path with a trailing `/`. -/
def withSlash (dir : QString) : QString := if endsWith dir ['/'] then dir else dir ++ ['/']

/-- The files `QDirIterator(dir, QStringList() << wildCard, QDir::Files,
QDirIterator::NoIteratorFlags)` visits: the regular files directly in `dir` whose
name matches the filter, in iteration order. -/
def entryList (env : Env) (fs : FileSystem) (dir wildCard : QString) : List DiskFile :=
  fs.filter fun f => dirPart f.filePath == withSlash dir && env.nameFilter wildCard (fileName f.filePath)

/-- The sync type of the remote object (`syncType()`). -/
inductive SyncType where
  | SyncClone
  | SyncReplace
  | SyncAppend
deriving DecidableEq, Repr

/-- The file behind `_mapFile`. -/
structure QTemporaryFile where
  data : QByteArray
  isOpen : Bool
deriving DecidableEq, Repr

/-- Model of `QIODevice::write`: it appends to an open file and fails on a closed one. -/
def QTemporaryFile.write (f : QTemporaryFile) (bytes : QByteArray) : QTemporaryFile :=
  if f.isOpen then { f with data := f.data ++ bytes } else f

/-- Model of `QIODevice::close`. -/
def QTemporaryFile.close (f : QTemporaryFile) : QTemporaryFile := { f with isOpen := false }

/-- Model of `QGCNewMission(name, mission)`. -/
structure QGCNewMission where
  name : QString
  mission : QByteArray
deriving DecidableEq, Repr

/-- The members of `QGCSyncFilesMobile` and the properties of its base
`QGCRemoteSimpleSource` that the slots read or write.  `logWorker` and
`mapWorker` say whether the pointer is non-null, `mapFile = none` is the null
pointer. -/
structure QGCSyncFilesMobile where
  cancel : Bool
  syncType : SyncType
  logWorker : Bool
  mapWorker : Bool
  mapFile : Option QTemporaryFile
  lastMapExportProgress : Int
  importReplace : Bool
  missionEntriesOnMobile : List (QString × Nat)
deriving DecidableEq, Repr

/-- What a slot does to the outside, one entry per action, in program order. -/
inductive Effect where
  /-- The action `setCancel(b)` -/
  | setCancel (b : Bool)
  /-- The action `QCoreApplication::processEvents()` -/
  | processEvents
  /-- a call of `cancel()` and the value it returned -/
  | cancelCheck (seen : Bool)
  /-- The action `emit logFragment(f)`: the fragment goes to the peer -/
  | logFragment (f : QGCLogFragment)
  /-- The action `emit mapFragment(f)`: the fragment goes to the peer -/
  | mapFragment (f : QGCMapFragment)
  /-- The action `emit missionFromMobile(m)` -/
  | missionFromMobile (m : QGCNewMission)
  /-- The action `_workerThread.start()` -/
  | threadStart
  /-- The action `emit doLogSync(logsToSend)` -/
  | doLogSync (logsToSend : List QString)
  /-- The action `emit doMapSync(_mapFile)` -/
  | doMapSync (mapFile : QTemporaryFile)
  /-- The action `delete _mapFile` on a non-null pointer: the temporary file is removed -/
  | deleteTemp (f : QTemporaryFile)
  /-- The action `addTask(new QGCImportTileTask(fileName, importReplace))`, with the content
  of the file at that moment -/
  | importTask (data : QByteArray) (importReplace : Bool)
  /-- The action `addTask(new QGCExportTileTask(setsToExport, fileName))` -/
  | exportTask (sets : List QString)
deriving DecidableEq, Repr

/-- The statement `if(_mapFile) { delete _mapFile; _mapFile = NULL; }`. -/
def dropMapFile (s : QGCSyncFilesMobile) : QGCSyncFilesMobile × List Effect :=
  match s.mapFile with
  | some f => ({ s with mapFile := none }, [.deleteTemp f])
  | none => (s, [])

/-- Model of `QGCSyncFilesMobile::_logFragment`. -/
def _logFragment (s : QGCSyncFilesMobile) (fragment : QGCLogFragment) : List Effect :=
  if !s.cancel then [.logFragment fragment] else []

/-- Model of `QGCSyncFilesMobile::_mapFragment`. -/
def _mapFragment (s : QGCSyncFilesMobile) (fragment : QGCMapFragment) : List Effect :=
  if !s.cancel then [.mapFragment fragment] else []

/-- Model of `QGCSyncFilesMobile::_updateMissionsOnMobile`. -/
def _updateMissionsOnMobile (env : Env) (s : QGCSyncFilesMobile) (fs : FileSystem) :
    QGCSyncFilesMobile :=
  { s with missionEntriesOnMobile :=
      (entryList env fs env.missionSavePath kMissionWildCard).map fun f =>
        (fileName f.filePath, f.data.length) }

/-- Model of `QGCSyncFilesMobile::_processIncomingMission` (the branch of a build that is
not `Q_OS_WIN`): the path written to `missionFile` and the returned
`f.exists()`. -/
def _processIncomingMission (env : Env) (fs : FileSystem) (name : QString) (count : Nat) :
    QString × Bool :=
  let m0 := env.missionSavePath
  let m1 := if !endsWith m0 ['/'] then m0 ++ ['/'] else m0
  let m2 := m1 ++ name
  let m3 := if !endsWith m2 kMissionExtension then m2 ++ kMissionExtension else m2
  let m4 :=
    if count ≠ 0 then replace m3 kMissionExtension (['-'] ++ Nat.toDigits 10 count ++ kMissionExtension)
    else m3
  (m4, fileExists fs m4)

/-- The `do { .. } while(syncType() == SyncAppend)` loop of `missionToMobile`,
run for at most `fuel` iterations from `count`; `none` when the iterations do not
suffice. -/
def missionFileLoop (env : Env) (fs : FileSystem) (name : QString) (append : Bool) :
    Nat → Nat → Option QString
  | 0, _ => none
  | fuel + 1, count =>
    let r := _processIncomingMission env fs name count
    if !r.2 then some r.1
    else if append then missionFileLoop env fs name append fuel (count + 1)
    else some r.1

/-- Model of `QGCSyncFilesMobile::missionToMobile`.  The loop is given one iteration more
than there are files on disk. -/
def missionToMobile (env : Env) (s : QGCSyncFilesMobile) (fs : FileSystem)
    (mission : QGCNewMission) : Option (QGCSyncFilesMobile × FileSystem) :=
  match missionFileLoop env fs mission.name (s.syncType == .SyncAppend) (fs.length + 1) 0 with
  | none => none
  | some missionFile =>
    if env.canWrite missionFile then
      let fs1 := writeFile fs missionFile mission.mission
      some (_updateMissionsOnMobile env s fs1, fs1)
    else some (s, fs)

/-- Model of `QGCSyncFilesMobile::mapToMobile`. -/
def mapToMobile (s : QGCSyncFilesMobile) (importReplace : Bool) : QGCSyncFilesMobile :=
  { s with importReplace := importReplace }

/-- Model of `QGCSyncFilesMobile::mapFragmentToMobile`. -/
def mapFragmentToMobile (env : Env) (s : QGCSyncFilesMobile) (fragment : QGCMapFragment) :
    QGCSyncFilesMobile × List Effect :=
  if s.cancel then dropMapFile s
  else if fragment.current = 0 ∧ fragment.total = 0 then
    if fragment.data.length ≠ 0 then (s, [])
    else dropMapFile s
  else
    -- first fragment: the old file goes, a new one is created
    let first : QGCSyncFilesMobile × List Effect × Bool :=
      if fragment.progress = 0 then
        let d := dropMapFile s
        if !env.tempOpens then (d.1, d.2 ++ [.deleteTemp ⟨[], false⟩], true)
        else ({ d.1 with mapFile := some ⟨[], true⟩ }, d.2, false)
      else (s, [], false)
    if first.2.2 then (first.1, first.2.1)
    else
      match first.1.mapFile with
      | none => (first.1, first.2.1)
      | some file =>
        let file1 := if fragment.data.length ≠ 0 then file.write fragment.data else file
        if fragment.total ≤ fragment.current then
          ({ first.1 with mapFile := some file1.close },
            first.2.1 ++ [.importTask file1.data first.1.importReplace])
        else ({ first.1 with mapFile := some file1 }, first.2.1)

/-- Model of `QGCSyncFilesMobile::_mapImportError`. -/
def _mapImportError (s : QGCSyncFilesMobile) : QGCSyncFilesMobile × List Effect := dropMapFile s

/-- Model of `QGCSyncFilesMobile::_mapImportCompleted`. -/
def _mapImportCompleted (s : QGCSyncFilesMobile) : QGCSyncFilesMobile × List Effect :=
  dropMapFile s

/-- The list `missionsToPrune` built by the first loop of
`pruneExtraMissionsOnMobile`. -/
def missionsToPrune (env : Env) (fs : FileSystem) (allMissions : List QString) : List QString :=
  ((entryList env fs env.missionSavePath kMissionWildCard).filter fun f =>
    !allMissions.contains (fileName f.filePath)).map fun f => f.filePath

/-- Model of `QGCSyncFilesMobile::pruneExtraMissionsOnMobile`. -/
def pruneExtraMissionsOnMobile (env : Env) (s : QGCSyncFilesMobile) (fs : FileSystem)
    (allMissions : List QString) : QGCSyncFilesMobile × FileSystem :=
  let fs1 := (missionsToPrune env fs allMissions).foldl (removeFile env) fs
  (_updateMissionsOnMobile env s fs1, fs1)

/-- The first loop of `requestMissionsFromMobile`, over the directory entries
still to visit; `peerCancel k` is the value of the `k`-th call of `cancel()` in
this request.  Returns the trace, `missionsToSend` unless the slot returned, and
the index of the next observation. -/
def missionScanLoop (peerCancel : Nat → Bool) (missions : List QString) :
    List DiskFile → Nat → List Effect × Option (List QString) × Nat
  | [], k => ([], some [], k)
  | f :: rest, k =>
    if peerCancel k then ([.processEvents, .cancelCheck true], none, k + 1)
    else
      let r := missionScanLoop peerCancel missions rest (k + 1)
      (.processEvents :: .cancelCheck false :: r.1,
        r.2.1.map (fun l => if missions.contains (fileName f.filePath) then f.filePath :: l else l),
        r.2.2)

/-- The second loop of `requestMissionsFromMobile`, over `missionsToSend`.
Returns the trace and whether the slot returned on a set flag. -/
def missionSendLoop (env : Env) (fs : FileSystem) (peerCancel : Nat → Bool) :
    List QString → Nat → List Effect × Bool
  | [], _ => ([], false)
  | missionFile :: rest, k =>
    if peerCancel k then ([.processEvents, .cancelCheck true], true)
    else
      let bytes : QByteArray :=
        if env.canRead missionFile then
          match fs.find? (fun f => f.filePath == missionFile) with
          | some f => f.data
          | none => []
        else []
      let r := missionSendLoop env fs peerCancel rest (k + 1)
      (.processEvents :: .cancelCheck false ::
        .missionFromMobile ⟨fileName missionFile, bytes⟩ :: r.1, r.2)

/-- Model of `QGCSyncFilesMobile::requestMissionsFromMobile`.  The flag is cleared first;
the peer may set it again while `processEvents()` runs, which the oracle
`peerCancel` records.  The flag at the end is the last value seen. -/
def requestMissionsFromMobile (env : Env) (s : QGCSyncFilesMobile) (fs : FileSystem)
    (missions : List QString) (peerCancel : Nat → Bool) : QGCSyncFilesMobile × List Effect :=
  let scan := missionScanLoop peerCancel missions
    (entryList env fs env.missionSavePath kMissionWildCard) 0
  match scan.2.1 with
  | none => ({ s with cancel := true }, .setCancel false :: scan.1)
  | some missionsToSend =>
    let send := missionSendLoop env fs peerCancel missionsToSend scan.2.2
    ({ s with cancel := send.2 }, .setCancel false :: scan.1 ++ send.1)

/-- The list `logsToSend` built by the loop of `requestLogsFromMobile`. -/
def logsToSend (env : Env) (fs : FileSystem) (logs : List QString) : List QString :=
  ((entryList env fs env.telemetrySavePath kLogWildCard).filter fun f =>
    logs.contains (fileName f.filePath)).map fun f => f.filePath

/-- Model of `QGCSyncFilesMobile::requestLogsFromMobile`. -/
def requestLogsFromMobile (env : Env) (s : QGCSyncFilesMobile) (fs : FileSystem)
    (logs : List QString) : QGCSyncFilesMobile × List Effect :=
  if (logsToSend env fs logs).length = 0 ∨ s.logWorker = true then
    (s, _logFragment s ⟨[], 0, 0, []⟩)
  else
    ({ s with cancel := false, logWorker := true },
      [.setCancel false, .threadStart, .doLogSync (logsToSend env fs logs)])

/-- Model of `QGCSyncFilesMobile::requestMapTilesFromMobile`.  `_mapFile` is assigned the
new temporary file before the test, whatever it pointed to. -/
def requestMapTilesFromMobile (env : Env) (s : QGCSyncFilesMobile) (sets : List QString) :
    QGCSyncFilesMobile × List Effect :=
  let setsToExport := env.tileSets.filter fun n => sets.contains n
  if env.tempOpens = false ∨ setsToExport.length = 0 ∨ s.mapWorker = true then
    ({ s with mapFile := none }, _mapFragment s ⟨0, 0, [], 0⟩ ++ [.deleteTemp ⟨[], env.tempOpens⟩])
  else
    ({ s with cancel := false, mapWorker := true, mapFile := some ⟨[], false⟩,
              lastMapExportProgress := 0 },
      [.setCancel false, .exportTask setsToExport])

/-- Model of `QGCSyncFilesMobile::_mapExportError`. -/
def _mapExportError (s : QGCSyncFilesMobile) : QGCSyncFilesMobile × List Effect :=
  match s.mapFile with
  | some f => ({ s with mapFile := none }, _mapFragment s ⟨0, 0, [], 0⟩ ++ [.deleteTemp f])
  | none => (s, [])

/-- Model of `QGCSyncFilesMobile::_mapExportDone`. -/
def _mapExportDone (s : QGCSyncFilesMobile) : List Effect :=
  match s.mapFile with
  | some f => [.threadStart, .doMapSync f]
  | none => []

/-- Model of `QGCSyncFilesMobile::_mapExportProgressChanged`; the payload is the one
character `'1'`. -/
def _mapExportProgressChanged (s : QGCSyncFilesMobile) (percentage : Int) :
    QGCSyncFilesMobile × List Effect :=
  if s.mapFile.isSome ∧ s.lastMapExportProgress ≠ percentage ∧ percentage ≤ 100 then
    ({ s with lastMapExportProgress := percentage }, _mapFragment s ⟨0, 0, [49], percentage⟩)
  else (s, [])

/-- Model of `QGCSyncFilesMobile::_logWorkerDone`. -/
def _logWorkerDone (s : QGCSyncFilesMobile) : QGCSyncFilesMobile := { s with logWorker := false }

/-- Model of `QGCSyncFilesMobile::_mapWorkerDone`. -/
def _mapWorkerDone (s : QGCSyncFilesMobile) : QGCSyncFilesMobile × List Effect :=
  dropMapFile { s with mapWorker := false }

/-- The three ways `mapFragmentToMobile` treats a fragment once the flag is
clear. -/
inductive FragmentKind where
  | progressOnly
  | error
  | data
deriving DecidableEq, Repr

/-- The tests `fragment.current() == 0 && fragment.total() == 0` ("Check for non
data") and `fragment.data().size()` ("Check for progress", else "Error") at the
head of `mapFragmentToMobile`. -/
def fragmentKind (fragment : QGCMapFragment) : FragmentKind :=
  if fragment.current = 0 ∧ fragment.total = 0 then
    if fragment.data.length ≠ 0 then .progressOnly else .error
  else .data

/-- The pointer `_mapFile` when `mapFragmentToMobile` reaches `if(_mapFile)`
with a data fragment: the new temporary file after "Check for first fragment",
the old pointer otherwise. -/
def bufferForData (env : Env) (s : QGCSyncFilesMobile) (fragment : QGCMapFragment) :
    Option QTemporaryFile :=
  if fragment.progress = 0 then
    if env.tempOpens then some ⟨[], true⟩ else none
  else s.mapFile

/-- Whether `QDirIterator(missionSavePath, "*.plan", QDir::Files)` visits the
file. -/
def isMissionFile (env : Env) (f : DiskFile) : Bool :=
  dirPart f.filePath == withSlash env.missionSavePath &&
    env.nameFilter kMissionWildCard (fileName f.filePath)

/-- Events that are neither a `done` signal nor, unless `pauses` holds, a pause. -/
def Plain {F : Type} (pauses : Prop) (e : WorkerEvent F) : Prop :=
  e ≠ .done ∧ ∀ ms, e = .msleep ms → pauses

/-- A stretch of a run in which the worker only sees the flag set and signals
`done`: it opens, reads, emits and sleeps no more. -/
def Quiet {F : Type} (t : List (WorkerEvent F)) : Prop :=
  ∀ e ∈ t, e = .cancelCheck true ∨ e = .done

/-- A run in which everything after a check that saw the flag set is quiet. -/
def Settled {F : Type} (t : List (WorkerEvent F)) : Prop :=
  ∀ pre post, t = pre ++ .cancelCheck true :: post → Quiet post

/-- What the proof of `Settled` carries through a piece of a run that starts at
observation `k` and ends before observation `k1`. -/
def SettledUpTo {F : Type} (cancel : Nat → Bool) (k : Nat) (t : List (WorkerEvent F))
    (k1 : Nat) : Prop :=
  k ≤ k1 ∧ Settled t ∧ (WorkerEvent.cancelCheck true ∈ t → cancel k1 = true)

/-! ## Presence broadcast and the map round trip -/

/-- The loop `foreach(QNetworkInterface interface, QNetworkInterface::allInterfaces())`
of `_broadcastPresence` over the hardware addresses of the interfaces still to
visit; the second argument is the current value of `macAddress`.  Every visited
interface overwrites `macAddress`; the loop is left at the first address that is
not empty and does not end in `00:00:00`. -/
def firstMacAddress : List QString → QString → QString
  | [], macAddress => macAddress
  | hardwareAddress :: rest, _ =>
    if !hardwareAddress.isEmpty && !endsWith hardwareAddress "00:00:00".toList then hardwareAddress
    else firstMacAddress rest hardwareAddress

/-- The text `sprintf("%06d", n)` gives for `n ≥ 0`: decimal digits, padded with
zeros to six. -/
def sprintf06d (n : Nat) : QString :=
  List.replicate (6 - (Nat.toDigits 10 n).length) '0' ++ Nat.toDigits 10 n

/-- The value `macAddress` has when `_broadcastPresence` formats the identifier;
`rand` is the value of `qrand()`. -/
def identifierSuffix (interfaces : List QString) (rand : Nat) : QString :=
  let macAddress := firstMacAddress interfaces []
  if macAddress.length > 9 then replace (macAddress.drop 9) [':'] []
  else sprintf06d (rand % 999999)

/-- Model of `QGCSyncFilesMobile::_broadcastPresence`.  `mobileName` is the macro
`QGC_MOBILE_NAME`, `sig` the result of `classinfo_signature`, `interfaces` the
hardware addresses of `QNetworkInterface::allInterfaces()`, `rand` the value of
`qrand()`.  Returns the new `_remoteIdentifier` and the datagram written. -/
def _broadcastPresence (mobileName sig : QString) (interfaces : List QString) (rand : Nat)
    (remoteIdentifier : QString) : QString × QString :=
  let identifier :=
    if remoteIdentifier.isEmpty then
      mobileName ++ identifierSuffix interfaces rand ++ ['|'] ++ sig
    else remoteIdentifier
  (identifier, identifier)

/-- The slot `mapFragmentToMobile` run on a sequence of fragments in order.
Returns the final state and, per fragment, what the slot did. -/
def feedMapFragments (env : Env) :
    QGCSyncFilesMobile → List QGCMapFragment → QGCSyncFilesMobile × List (List Effect)
  | s, [] => (s, [])
  | s, fragment :: rest =>
    let r := mapFragmentToMobile env s fragment
    let r2 := feedMapFragments env r.1 rest
    (r2.1, r.2 :: r2.2)

/-- The import tasks queued in a list of effects: file content and replace flag. -/
def importTasksOf (es : List Effect) : List (QByteArray × Bool) :=
  es.filterMap fun e => match e with
    | .importTask data importReplace => some (data, importReplace)
    | _ => none

/-! # Theorems -/

/-! ## Facts about traces -/

section lemmas
variable {F : Type}

@[simp] theorem fragmentsOf_nil : fragmentsOf ([] : List (WorkerEvent F)) = [] := rfl

@[simp] theorem fragmentsOf_append (a b : List (WorkerEvent F)) :
    fragmentsOf (a ++ b) = fragmentsOf a ++ fragmentsOf b := by
  simp [fragmentsOf, List.filterMap_append]

@[simp] theorem fragmentsOf_cons_fragment (f : F) (t : List (WorkerEvent F)) :
    fragmentsOf (.fragment f :: t) = f :: fragmentsOf t := by
  simp [fragmentsOf, List.filterMap_cons]

@[simp] theorem fragmentsOf_cons_cancelCheck (b : Bool) (t : List (WorkerEvent F)) :
    fragmentsOf (.cancelCheck b :: t) = fragmentsOf t := by
  simp [fragmentsOf, List.filterMap_cons]

@[simp] theorem fragmentsOf_cons_opened (b : Bool) (t : List (WorkerEvent F)) :
    fragmentsOf (.opened b :: t) = fragmentsOf t := by
  simp [fragmentsOf, List.filterMap_cons]

@[simp] theorem fragmentsOf_cons_read (b : QByteArray) (t : List (WorkerEvent F)) :
    fragmentsOf (.read b :: t) = fragmentsOf t := by
  simp [fragmentsOf, List.filterMap_cons]

@[simp] theorem fragmentsOf_cons_msleep (n : Nat) (t : List (WorkerEvent F)) :
    fragmentsOf (.msleep n :: t) = fragmentsOf t := by
  simp [fragmentsOf, List.filterMap_cons]

@[simp] theorem fragmentsOf_cons_done (t : List (WorkerEvent F)) :
    fragmentsOf (.done :: t) = fragmentsOf t := by
  simp [fragmentsOf, List.filterMap_cons]

theorem fragmentsOf_throttle (cancel : Nat → Bool) (n k : Nat) :
    fragmentsOf (throttle cancel n k : List (WorkerEvent F) × Nat).1 = [] := by
  induction n generalizing k with
  | zero => simp [throttle]
  | succ n ih =>
    unfold throttle
    split
    · simp
    · simp [ih]

/-- Offsets of the fragments a never-cancelled upload loop emits. -/
theorem sendLoop_offsets (mk : Nat → QByteArray → Int → F) (cur : F → Nat)
    (hcur : ∀ s b g, cur (mk s b g) = s) (total : Nat) (htot : total < 2 ^ 63)
    (reads : List QByteArray)
    (hne : ∀ b ∈ reads, 0 < b.length ∧ b.length ≤ kChunk) :
    ∀ (sofar : Nat) (seg : Int) (k : Nat), sofar < total →
      total ≤ sofar + (reads.map List.length).sum →
      ((fragmentsOf (sendLoop mk total (fun _ => false) reads sofar seg k).1).map cur).Pairwise
          (· < ·) ∧
        (∀ x ∈ (fragmentsOf (sendLoop mk total (fun _ => false) reads sofar seg k).1).map cur,
          sofar < x) ∧
        ∃ l, ((fragmentsOf (sendLoop mk total (fun _ => false) reads sofar seg k).1).map
          cur).getLast? = some l ∧ total ≤ l := by
  induction reads with
  | nil =>
    intro sofar seg k h1 h2
    simp at h2
    omega
  | cons b rest ih =>
    intro sofar seg k h1 h2
    have hb := hne b (List.mem_cons_self _ _)
    have hrest : ∀ b ∈ rest, 0 < b.length ∧ b.length ≤ kChunk :=
      fun x hx => hne x (List.mem_cons_of_mem _ hx)
    have hk : kChunk = 1048576 := by decide
    have hq : quint64 (sofar + b.length) = sofar + b.length := by
      unfold quint64
      apply Nat.mod_eq_of_lt
      omega
    have hlen : b.length ≠ 0 := by omega
    simp only [sendLoop, hq, hlen, ne_eq, not_false_eq_true, if_true, Bool.false_eq_true, if_false]
    by_cases hdone : sofar + b.length ≥ total
    · simp only [hdone, if_true]
      simp [hcur]
      omega
    · simp only [hdone, if_false]
      have h3 : total ≤ (sofar + b.length) + (rest.map List.length).sum := by
        simp at h2
        omega
      obtain ⟨p1, p2, l, p3, p4⟩ := ih hrest (sofar + b.length) (seg + 1)
        (if total > kThrottleMin ∧ b.length = kChunk
          then (throttle (fun _ => false) 10 (k + 1) : List (WorkerEvent F) × Nat)
          else ([], k + 1)).2 (by omega) h3
      have hp : fragmentsOf (if total > kThrottleMin ∧ b.length = kChunk
          then (throttle (fun _ => false) 10 (k + 1) : List (WorkerEvent F) × Nat)
          else ([], k + 1)).1 = [] := by
        split
        · exact fragmentsOf_throttle _ _ _
        · rfl
      simp only [List.append_assoc, fragmentsOf_append, hp, List.nil_append, List.cons_append,
        fragmentsOf_cons_cancelCheck, fragmentsOf_cons_read, fragmentsOf_cons_fragment,
        List.map_cons, hcur, List.pairwise_cons, List.mem_cons, forall_eq_or_imp]
      refine ⟨⟨p2, p1⟩, ⟨by omega, fun x hx => by have := p2 x hx; omega⟩, l, ?_, p4⟩
      rw [List.getLast?_cons, p3]
      rfl

end lemmas

theorem quint64_of_lt {n : Nat} (h : n < 2 ^ 63) : quint64 n = n := by
  unfold quint64
  apply Nat.mod_eq_of_lt
  omega

/-- C1 (fragment monotonicity).  For a source file that opens, of size
`0 < total < 2 ^ 63` (`QFileInfo::size()` is a `qint64`), whose reads are all
non-empty, at most 1 MiB long and together reach `total`, and with the
cancellation flag never seen set: the offsets of the fragments `doLogSync` emits
for that file, and of those `doMapSync` emits for it as archive, are strictly
increasing, and the last emitted fragment has `offset ≥ total`. -/
theorem C1_fragment_monotonicity (f : SourceFile) (hopen : f.opens = true)
    (hpos : 0 < f.size) (hsize : f.size < 2 ^ 63)
    (hreads : ∀ b ∈ f.reads, 0 < b.length ∧ b.length ≤ kChunk)
    (hsum : f.size ≤ (f.reads.map List.length).sum) :
    (((fragmentsOf (doLogSync [f] (fun _ => false))).map (·.current)).Pairwise (· < ·) ∧
      ∃ l, ((fragmentsOf (doLogSync [f] (fun _ => false))).map (·.current)).getLast? = some l ∧
        f.size ≤ l) ∧
    (((fragmentsOf (doMapSync (some f) (fun _ => false))).map (·.current)).Pairwise (· < ·) ∧
      ∃ l, ((fragmentsOf (doMapSync (some f) (fun _ => false))).map (·.current)).getLast? = some l ∧
        f.size ≤ l) := by
  have hq := quint64_of_lt hsize
  constructor
  · obtain ⟨p1, -, p3⟩ := sendLoop_offsets
      (fun sofar bytes _ => QGCLogFragment.mk (fileName f.filePath) sofar f.size bytes)
      (·.current) (fun _ _ _ => rfl) f.size hsize f.reads hreads 0 0 1 hpos (by omega)
    simpa [doLogSync, logSyncLoop, hopen, hq] using And.intro p1 p3
  · obtain ⟨p1, -, p3⟩ := sendLoop_offsets
      (fun sofar bytes segment => QGCMapFragment.mk sofar f.size bytes segment)
      (·.current) (fun _ _ _ => rfl) f.size hsize f.reads hreads 0 0 0 hpos (by omega)
    have h0 : f.size ≠ 0 := by omega
    simpa [doMapSync, hopen, hq, h0] using And.intro p1 p3

/-- C1 at a file of three bytes read as two bytes and then one. -/
theorem C1_fragment_monotonicity_witness :
    (((fragmentsOf (doLogSync [⟨['a'], true, 3, [[1, 2], [3]]⟩] (fun _ => false))).map
        (·.current)).Pairwise (· < ·) ∧
      ∃ l, ((fragmentsOf (doLogSync [⟨['a'], true, 3, [[1, 2], [3]]⟩] (fun _ => false))).map
        (·.current)).getLast? = some l ∧ 3 ≤ l) ∧
    (((fragmentsOf (doMapSync (some ⟨['a'], true, 3, [[1, 2], [3]]⟩) (fun _ => false))).map
        (·.current)).Pairwise (· < ·) ∧
      ∃ l, ((fragmentsOf (doMapSync (some ⟨['a'], true, 3, [[1, 2], [3]]⟩)
        (fun _ => false))).map (·.current)).getLast? = some l ∧ 3 ≤ l) :=
  C1_fragment_monotonicity ⟨['a'], true, 3, [[1, 2], [3]]⟩ rfl (by decide) (by norm_num)
    (by decide) (by decide)

@[simp] theorem pausesOf_append {F : Type} (a b : List (WorkerEvent F)) :
    pausesOf (a ++ b) = pausesOf a + pausesOf b := by
  simp [pausesOf, List.filter_append]

@[simp] theorem donesOf_append {F : Type} (a b : List (WorkerEvent F)) :
    donesOf (a ++ b) = donesOf a + donesOf b := by
  simp [donesOf, List.filter_append]

section counting
variable {F : Type}

theorem donesOf_eq_zero {pauses : Prop} {t : List (WorkerEvent F)}
    (h : ∀ e ∈ t, Plain pauses e) : donesOf t = 0 := by
  unfold donesOf
  rw [List.length_eq_zero, List.filter_eq_nil_iff]
  intro e he
  have := (h e he).1
  cases e <;> simp_all

theorem pausesOf_eq_zero {t : List (WorkerEvent F)}
    (h : ∀ e ∈ t, ∀ ms, e ≠ .msleep ms) : pausesOf t = 0 := by
  unfold pausesOf
  rw [List.length_eq_zero, List.filter_eq_nil_iff]
  intro e he
  cases e <;> first | exact absurd rfl (h _ he _) | simp

theorem plain_throttle (cancel : Nat → Bool) (n k : Nat) :
    ∀ e ∈ (throttle cancel n k : List (WorkerEvent F) × Nat).1, Plain True e := by
  induction n generalizing k with
  | zero => simp [throttle]
  | succ n ih =>
    intro e he
    rw [throttle] at he
    split at he
    · simp at he
      rcases he with rfl | rfl <;> simp [Plain]
    · simp only [List.mem_cons] at he
      rcases he with rfl | rfl | he
      · simp [Plain]
      · simp [Plain]
      · exact ih _ e he

theorem sendLoop_cons (mk : Nat → QByteArray → Int → F) (total : Nat) (cancel : Nat → Bool)
    (b : QByteArray) (rest : List QByteArray) (sofar : Nat) (seg : Int) (k : Nat) :
    sendLoop mk total cancel (b :: rest) sofar seg k =
      if cancel k = true then ([.cancelCheck true], k + 1)
      else if b.length = 0 then ([.cancelCheck false, .read b], k + 1)
      else if total ≤ quint64 (sofar + b.length) then
        ([.cancelCheck false, .read b, .fragment (mk (quint64 (sofar + b.length)) b seg)], k + 1)
      else if total > kThrottleMin ∧ b.length = kChunk then
        (.cancelCheck false :: .read b :: .fragment (mk (quint64 (sofar + b.length)) b seg) ::
          ((throttle cancel 10 (k + 1)).1 ++
            (sendLoop mk total cancel rest (quint64 (sofar + b.length)) (seg + 1)
              (throttle cancel 10 (k + 1) : List (WorkerEvent F) × Nat).2).1),
          (sendLoop mk total cancel rest (quint64 (sofar + b.length)) (seg + 1)
              (throttle cancel 10 (k + 1) : List (WorkerEvent F) × Nat).2).2)
      else
        (.cancelCheck false :: .read b :: .fragment (mk (quint64 (sofar + b.length)) b seg) ::
            (sendLoop mk total cancel rest (quint64 (sofar + b.length)) (seg + 1) (k + 1)).1,
          (sendLoop mk total cancel rest (quint64 (sofar + b.length)) (seg + 1) (k + 1)).2) := by
  by_cases hc : cancel k = true
  · rw [if_pos hc, sendLoop, if_pos hc]
  · by_cases hb : b.length = 0
    · rw [if_neg hc, if_pos hb, sendLoop, if_neg hc, if_neg (by simpa using hb)]
    · by_cases hd : total ≤ quint64 (sofar + b.length)
      · rw [if_neg hc, if_neg hb, if_pos hd, sendLoop, if_neg hc, if_pos hb]
        simp only [ge_iff_le, if_pos hd]
      · by_cases hp : total > kThrottleMin ∧ b.length = kChunk
        · rw [if_neg hc, if_neg hb, if_neg hd, if_pos hp, sendLoop, if_neg hc, if_pos hb]
          simp only [ge_iff_le, if_neg hd, if_pos hp, List.cons_append, List.nil_append,
            List.append_assoc]
        · rw [if_neg hc, if_neg hb, if_neg hd, if_neg hp, sendLoop, if_neg hc, if_pos hb]
          simp only [ge_iff_le, if_neg hd, if_neg hp, List.cons_append, List.nil_append,
            List.append_assoc]

theorem sendLoop_nil (mk : Nat → QByteArray → Int → F) (total : Nat) (cancel : Nat → Bool)
    (sofar : Nat) (seg : Int) (k : Nat) :
    sendLoop mk total cancel [] sofar seg k =
      if cancel k = true then ([.cancelCheck true], k + 1)
      else ([.cancelCheck false, .read []], k + 1) := by
  rw [sendLoop]

theorem throttle_succ (cancel : Nat → Bool) (n k : Nat) :
    (throttle cancel (n + 1) k : List (WorkerEvent F) × Nat) =
      if cancel k = true then ([.msleep 10, .cancelCheck true], k + 1)
      else (.msleep 10 :: .cancelCheck false :: (throttle cancel n (k + 1)).1,
        (throttle cancel n (k + 1) : List (WorkerEvent F) × Nat).2) := by
  rw [throttle]

theorem logSyncLoop_cons (cancel : Nat → Bool) (f : SourceFile) (rest : List SourceFile)
    (k : Nat) :
    logSyncLoop cancel (f :: rest) k =
      if cancel k = true then ([.cancelCheck true], k + 1)
      else if f.opens = false then
        ([.cancelCheck false, .opened false, .fragment ⟨fileName f.filePath, 0, 0, []⟩], k + 1)
      else
        (.cancelCheck false :: .opened true ::
          ((sendLoop (fun sofar bytes _ => QGCLogFragment.mk (fileName f.filePath) sofar
            (quint64 f.size) bytes) (quint64 f.size) cancel f.reads 0 0 (k + 1)).1 ++
          (logSyncLoop cancel rest (sendLoop (fun sofar bytes _ => QGCLogFragment.mk
            (fileName f.filePath) sofar (quint64 f.size) bytes) (quint64 f.size) cancel f.reads
            0 0 (k + 1)).2).1),
          (logSyncLoop cancel rest (sendLoop (fun sofar bytes _ => QGCLogFragment.mk
            (fileName f.filePath) sofar (quint64 f.size) bytes) (quint64 f.size) cancel f.reads
            0 0 (k + 1)).2).2) := by
  by_cases hc : cancel k = true
  · rw [if_pos hc, logSyncLoop, if_pos hc]
  · by_cases ho : f.opens = false
    · rw [if_neg hc, if_pos ho, logSyncLoop, if_neg hc, if_pos (by simp [ho])]
    · rw [if_neg hc, if_neg ho, logSyncLoop, if_neg hc, if_neg (by simpa using ho)]
      simp only [List.cons_append]

theorem plain_sendLoop (mk : Nat → QByteArray → Int → F) (total : Nat) (cancel : Nat → Bool)
    (reads : List QByteArray) :
    ∀ (sofar : Nat) (seg : Int) (k : Nat),
      ∀ e ∈ (sendLoop mk total cancel reads sofar seg k).1, Plain (total > kThrottleMin) e := by
  induction reads with
  | nil =>
    intro sofar seg k e he
    rw [sendLoop_nil] at he
    split at he
    · simp at he
      subst he
      simp [Plain]
    · simp at he
      rcases he with rfl | rfl <;> simp [Plain]
  | cons b rest ih =>
    intro sofar seg k e he
    rw [sendLoop_cons] at he
    split at he
    · simp at he
      subst he
      simp [Plain]
    · split at he
      · simp at he
        rcases he with rfl | rfl <;> simp [Plain]
      · split at he
        · simp at he
          rcases he with rfl | rfl | rfl <;> simp [Plain]
        · split at he
          · rename_i hp
            simp only [List.mem_cons, List.mem_append] at he
            rcases he with rfl | rfl | rfl | he | he
            · simp [Plain]
            · simp [Plain]
            · simp [Plain]
            · have := plain_throttle (F := F) cancel 10 (k + 1) e he
              exact ⟨this.1, fun _ _ => hp.1⟩
            · exact ih _ _ _ e he
          · simp only [List.mem_cons] at he
            rcases he with rfl | rfl | rfl | he
            · simp [Plain]
            · simp [Plain]
            · simp [Plain]
            · exact ih _ _ _ e he

theorem plain_logSyncLoop (cancel : Nat → Bool) (files : List SourceFile) :
    ∀ k, ∀ e ∈ (logSyncLoop cancel files k).1, Plain (F := QGCLogFragment) True e := by
  induction files with
  | nil => intro k; simp [logSyncLoop]
  | cons f rest ih =>
    intro k e he
    rw [logSyncLoop_cons] at he
    split at he
    · simp at he
      subst he
      simp [Plain]
    · split at he
      · simp at he
        rcases he with rfl | rfl | rfl <;> simp [Plain]
      · simp only [List.mem_cons, List.mem_append] at he
        rcases he with rfl | rfl | he | he
        · simp [Plain]
        · simp [Plain]
        · exact ⟨(plain_sendLoop _ _ _ _ _ _ _ e he).1, fun _ _ => trivial⟩
        · exact ih _ e he

/-- A log run signals `done` exactly once, as its last action. -/
theorem doLogSync_done (files : List SourceFile) (cancel : Nat → Bool) :
    donesOf (doLogSync files cancel) = 1 ∧ (doLogSync files cancel).getLast? = some .done := by
  constructor
  · simp only [doLogSync, donesOf_append, donesOf_eq_zero (plain_logSyncLoop cancel files 0)]
    simp [donesOf]
  · simp [doLogSync]

end counting

/-- Fragments of a never-cancelled log upload loop over the slices `k0 ..` of a
file, entered with `sofar = k0 * kChunk`. -/
theorem sendLoop_sequential (nm : QString) (content : QByteArray)
    (hsz : content.length < 2 ^ 63) :
    ∀ (m k0 : Nat) (seg : Int) (k : Nat),
      k0 + m = (content.length + kChunk - 1) / kChunk →
      fragmentsOf (sendLoop (fun sofar bytes _ => QGCLogFragment.mk nm sofar content.length bytes)
        content.length (fun _ => false)
        ((List.range' k0 m).map fun j => (content.drop (j * kChunk)).take kChunk)
        (k0 * kChunk) seg k).1 =
      (List.range' k0 m).map fun j =>
        QGCLogFragment.mk nm (min ((j + 1) * kChunk) content.length) content.length
          ((content.drop (j * kChunk)).take kChunk) := by
  intro m
  induction m with
  | zero =>
    intro k0 seg k _
    rw [List.range'_zero, List.map_nil, List.map_nil, sendLoop_nil, if_neg (by simp)]
    rfl
  | succ m ih =>
    intro k0 seg k hk
    have hC : kChunk = 1048576 := by decide
    rw [hC] at hk
    have hlt : k0 * 1048576 < content.length := by omega
    have hlen : ((content.drop (k0 * kChunk)).take kChunk).length =
        min 1048576 (content.length - k0 * 1048576) := by
      rw [List.length_take, List.length_drop, hC]
    have hsof : quint64 (k0 * kChunk + ((content.drop (k0 * kChunk)).take kChunk).length) =
        min ((k0 + 1) * kChunk) content.length := by
      rw [hlen, hC, quint64_of_lt (by omega)]
      omega
    have hne : ¬ ((content.drop (k0 * kChunk)).take kChunk).length = 0 := by
      rw [hlen]; omega
    rw [List.range'_succ, List.map_cons, List.map_cons, sendLoop_cons, if_neg (by simp),
      if_neg hne, hsof]
    by_cases hdone : content.length ≤ min ((k0 + 1) * kChunk) content.length
    · have hm : m = 0 := by
        rw [hC] at hdone
        omega
      subst hm
      rw [if_pos hdone]
      rfl
    · have hmin : min ((k0 + 1) * kChunk) content.length = (k0 + 1) * kChunk := by
        omega
      have hrec := ih (k0 + 1) (seg + 1)
      rw [if_neg hdone]
      split
      · simp only [fragmentsOf_cons_cancelCheck, fragmentsOf_cons_read,
          fragmentsOf_cons_fragment, fragmentsOf_append, fragmentsOf_throttle, List.nil_append]
        rw [hmin, hrec _ (by rw [hC]; omega)]
      · simp only [fragmentsOf_cons_cancelCheck, fragmentsOf_cons_read,
          fragmentsOf_cons_fragment]
        rw [hmin, hrec _ (by rw [hC]; omega)]

/-- The trace of a log run over one file that opens, flag never seen set. -/
theorem doLogSync_single (f : SourceFile) (hopen : f.opens = true) :
    doLogSync [f] (fun _ => false) =
      .cancelCheck false :: .opened true ::
        ((sendLoop (fun sofar bytes _ => QGCLogFragment.mk (fileName f.filePath) sofar
          (quint64 f.size) bytes) (quint64 f.size) (fun _ => false) f.reads 0 0 1).1 ++
        [.cancelCheck false, .done]) := by
  rw [doLogSync, logSyncLoop_cons, if_neg (by simp), if_neg (by simp [hopen])]
  simp [logSyncLoop]

/-- C2 (fragment count and offsets).  For a log file that opens, with content of
`n < 2 ^ 63` bytes (in particular for every `n > 0` a `qint64` size can take) read slice by slice (each read returns `min(1 MiB,
remaining)` bytes) and the cancellation flag never seen set, `doLogSync` emits
exactly `⌈n / 1 MiB⌉` fragments, the `k`-th (from 0) with offset
`min((k+1) * 1 MiB, n)`, total `n` and the `k`-th slice as payload; `done` is
signalled exactly once, after all of them; and no pause is taken when
`n ≤ 5 MiB`. -/
theorem C2_fragment_count_and_offsets (path : QString) (content : QByteArray)
    (hsz : content.length < 2 ^ 63) :
    fragmentsOf (doLogSync [⟨path, true, content.length, sequentialReads content⟩]
        (fun _ => false)) =
      (List.range ((content.length + kChunk - 1) / kChunk)).map (fun k =>
        QGCLogFragment.mk (fileName path) (min ((k + 1) * kChunk) content.length) content.length
          ((content.drop (k * kChunk)).take kChunk)) ∧
    (fragmentsOf (doLogSync [⟨path, true, content.length, sequentialReads content⟩]
        (fun _ => false))).length = (content.length + kChunk - 1) / kChunk ∧
    donesOf (doLogSync [⟨path, true, content.length, sequentialReads content⟩]
        (fun _ => false)) = 1 ∧
    (doLogSync [⟨path, true, content.length, sequentialReads content⟩]
        (fun _ => false)).getLast? = some .done ∧
    (content.length ≤ kThrottleMin →
      pausesOf (doLogSync [⟨path, true, content.length, sequentialReads content⟩]
        (fun _ => false)) = 0) := by
  have hseq := sendLoop_sequential (fileName path) content hsz
    ((content.length + kChunk - 1) / kChunk) 0 0 1 (by omega)
  rw [Nat.zero_mul, ← List.range_eq_range'] at hseq
  have hfr : fragmentsOf (doLogSync [⟨path, true, content.length, sequentialReads content⟩]
        (fun _ => false)) =
      (List.range ((content.length + kChunk - 1) / kChunk)).map (fun k =>
        QGCLogFragment.mk (fileName path) (min ((k + 1) * kChunk) content.length) content.length
          ((content.drop (k * kChunk)).take kChunk)) := by
    rw [doLogSync_single _ rfl]
    simp only [quint64_of_lt hsz, sequentialReads, fragmentsOf_cons_cancelCheck,
      fragmentsOf_cons_opened, fragmentsOf_append, fragmentsOf_cons_done, fragmentsOf_nil,
      List.append_nil, hseq]
  refine ⟨hfr, ?_, (doLogSync_done _ _).1, (doLogSync_done _ _).2, ?_⟩
  · rw [hfr, List.length_map, List.length_range]
  · intro hsmall
    apply pausesOf_eq_zero
    intro e he ms hms
    subst hms
    rw [doLogSync_single _ rfl] at he
    simp only [List.mem_cons, List.mem_append] at he
    rcases he with he | he | he | he | he | he
    · cases he
    · cases he
    · have h2 := (plain_sendLoop _ _ _ _ _ _ _ _ he).2 ms rfl
      simp only [quint64_of_lt hsz] at h2
      omega
    · cases he
    · cases he
    · cases he

/-- C2 at a file of 3 MiB: three fragments with offsets 1 MiB, 2 MiB and 3 MiB,
each with total 3 MiB, then `done`, and no pause. -/
theorem C2_fragment_count_and_offsets_witness :
    (fragmentsOf (doLogSync [⟨"a.tlog".toList, true, 3145728,
        sequentialReads (List.replicate 3145728 0)⟩] (fun _ => false))).map
      (fun f => (f.current, f.total)) =
      [(1048576, 3145728), (2097152, 3145728), (3145728, 3145728)] ∧
    donesOf (doLogSync [⟨"a.tlog".toList, true, 3145728,
        sequentialReads (List.replicate 3145728 0)⟩] (fun _ => false)) = 1 ∧
    (doLogSync [⟨"a.tlog".toList, true, 3145728,
        sequentialReads (List.replicate 3145728 0)⟩] (fun _ => false)).getLast? = some .done ∧
    pausesOf (doLogSync [⟨"a.tlog".toList, true, 3145728,
        sequentialReads (List.replicate 3145728 0)⟩] (fun _ => false)) = 0 := by
  have h := C2_fragment_count_and_offsets "a.tlog".toList (List.replicate 3145728 0)
    (by rw [List.length_replicate]; norm_num)
  rw [List.length_replicate] at h
  obtain ⟨h1, -, h3, h4, h5⟩ := h
  refine ⟨?_, h3, h4, h5 (by decide)⟩
  rw [h1]
  have hc : (3145728 + kChunk - 1) / kChunk = 3 := by decide
  rw [hc]
  have hr : List.range 3 = [0, 1, 2] := by decide
  rw [hr]
  simp only [List.map_cons, List.map_nil]
  have hk : kChunk = 1048576 := by decide
  rw [hk]
  norm_num

/-! ## Receiving side: `mapFragmentToMobile` -/

theorem write_nil (b : QTemporaryFile) : b.write [] = b := by
  cases b with
  | mk data isOpen => cases isOpen <;> simp [QTemporaryFile.write]

/-- Outcome of `mapFragmentToMobile` on a data fragment when a buffer is there. -/
theorem mapFragmentToMobile_data (env : Env) (s : QGCSyncFilesMobile) (hc : s.cancel = false)
    (fragment : QGCMapFragment) (hk : ¬ (fragment.current = 0 ∧ fragment.total = 0))
    (b : QTemporaryFile) (hb : bufferForData env s fragment = some b) :
    (mapFragmentToMobile env s fragment).1 =
        { s with mapFile := some (if fragment.total ≤ fragment.current
            then (b.write fragment.data).close else b.write fragment.data) } ∧
      (mapFragmentToMobile env s fragment).2 =
        (if fragment.progress = 0 then (dropMapFile s).2 else []) ++
          (if fragment.total ≤ fragment.current
            then [.importTask (b.write fragment.data).data s.importReplace] else []) := by
  have hw : ∀ c : QTemporaryFile,
      (if fragment.data = [] then c else c.write fragment.data) = c.write fragment.data := by
    intro c
    by_cases hd : fragment.data = []
    · rw [if_pos hd, hd, write_nil]
    · rw [if_neg hd]
  unfold bufferForData at hb
  unfold mapFragmentToMobile
  rw [if_neg (by simp [hc]), if_neg hk]
  by_cases hp : fragment.progress = 0
  · rw [if_pos hp] at hb
    by_cases ht : env.tempOpens = true
    · rw [if_pos ht] at hb
      cases hb
      cases hm : s.mapFile <;>
        by_cases hfin : fragment.total ≤ fragment.current <;>
        simp [hp, ht, dropMapFile, hm, hfin, hw]
    · rw [if_neg ht] at hb
      cases hb
  · rw [if_neg hp] at hb
    by_cases hfin : fragment.total ≤ fragment.current <;>
      simp [hp, hb, hfin, hw]

/-- Outcome of `mapFragmentToMobile` on a data fragment, by sequence number and
by what `_mapFile` points to. -/
theorem mapFragmentToMobile_cases (env : Env) (s : QGCSyncFilesMobile) (hc : s.cancel = false)
    (fragment : QGCMapFragment) (hk : ¬ (fragment.current = 0 ∧ fragment.total = 0)) :
    (fragment.progress ≠ 0 → ∀ b, s.mapFile = some b →
      mapFragmentToMobile env s fragment =
        ({ s with mapFile := some (if fragment.total ≤ fragment.current
            then (b.write fragment.data).close else b.write fragment.data) },
          if fragment.total ≤ fragment.current
            then [.importTask (b.write fragment.data).data s.importReplace] else [])) ∧
    (fragment.progress ≠ 0 → s.mapFile = none → mapFragmentToMobile env s fragment = (s, [])) ∧
    (fragment.progress = 0 → env.tempOpens = true →
      mapFragmentToMobile env s fragment =
        ({ s with mapFile := some (if fragment.total ≤ fragment.current
            then (QTemporaryFile.write ⟨[], true⟩ fragment.data).close
            else QTemporaryFile.write ⟨[], true⟩ fragment.data) },
          (dropMapFile s).2 ++ (if fragment.total ≤ fragment.current
            then [.importTask (QTemporaryFile.write ⟨[], true⟩ fragment.data).data
              s.importReplace] else []))) ∧
    (fragment.progress = 0 → env.tempOpens = false →
      (mapFragmentToMobile env s fragment).1.mapFile = none ∧
      ∀ d r, Effect.importTask d r ∉ (mapFragmentToMobile env s fragment).2) := by
  refine ⟨?_, ?_, ?_, ?_⟩
  · intro hp b hb
    obtain ⟨h1, h2⟩ := mapFragmentToMobile_data env s hc fragment hk b
      (by simp [bufferForData, hp, hb])
    refine Prod.ext h1 ?_
    rw [h2, if_neg hp, List.nil_append]
  · intro hp hm
    unfold mapFragmentToMobile
    rw [if_neg (by simp [hc]), if_neg hk]
    simp [hp, hm]
  · intro hp ht
    obtain ⟨h1, h2⟩ := mapFragmentToMobile_data env s hc fragment hk ⟨[], true⟩
      (by simp [bufferForData, hp, ht])
    refine Prod.ext h1 ?_
    rw [h2, if_pos hp]
  · intro hp ht
    unfold mapFragmentToMobile
    rw [if_neg (by simp [hc]), if_neg hk]
    simp only [hp, ht, if_true, Bool.not_false]
    unfold dropMapFile
    cases hm : s.mapFile <;> simp [hm]

/-- C3 fails as stated: with a buffer of three bytes in progress, `{100, 100, ""}`
with sequence number 0 is not the completion of that transfer: the buffer is
deleted and an empty file is closed and handed to the import task; and with no
buffer and sequence number 5 nothing is closed or handed over. -/
theorem C3_completion_not_of_the_buffer :
    mapFragmentToMobile ⟨[], [], fun _ _ => true, fun _ => true, fun _ => true, fun _ => true,
        true, []⟩ ⟨false, .SyncClone, false, false, some ⟨[1, 2, 3], true⟩, 0, false, []⟩
      ⟨100, 100, [], 0⟩ =
      (⟨false, .SyncClone, false, false, some ⟨[], false⟩, 0, false, []⟩,
        [.deleteTemp ⟨[1, 2, 3], true⟩, .importTask [] false]) ∧
    mapFragmentToMobile ⟨[], [], fun _ _ => true, fun _ => true, fun _ => true, fun _ => true,
        true, []⟩ ⟨false, .SyncClone, false, false, none, 0, false, []⟩
      ⟨100, 100, [], 5⟩ =
      (⟨false, .SyncClone, false, false, none, 0, false, []⟩, []) := by
  decide

/-- C3 as the code has it.  With the cancellation flag clear,
`mapFragmentToMobile` puts every fragment in exactly one of three classes,
decided by `current`, `total` and the payload alone: zero/zero with payload is
progress-only, and nothing changes; zero/zero without payload is an error, and
the buffer in progress is deleted and nothing is imported; anything else is data
or completion.  A data fragment with non-zero sequence number is written to the
buffer in progress, which is closed and handed to the import task exactly when
`total ≤ current`, and does nothing when there is no buffer; one with sequence
number 0 first deletes the buffer in progress and starts a fresh file.  So
`{0, 0, "1"}` is progress-only, `{0, 0, ""}` an error, and `{100, 100, ""}` is a
completion: with non-zero sequence number the buffer in progress is closed and
handed to the import task unchanged; with sequence number 0 the buffer in
progress is deleted and a fresh empty file is closed and handed over. -/
theorem C3_sentinel_distinguishability (env : Env) (s : QGCSyncFilesMobile)
    (hc : s.cancel = false) (fragment : QGCMapFragment) :
    (fragmentKind fragment = .progressOnly ↔
      fragment.current = 0 ∧ fragment.total = 0 ∧ fragment.data ≠ []) ∧
    (fragmentKind fragment = .error ↔
      fragment.current = 0 ∧ fragment.total = 0 ∧ fragment.data = []) ∧
    (fragmentKind fragment = .data ↔ ¬ (fragment.current = 0 ∧ fragment.total = 0)) ∧
    (fragmentKind fragment = .progressOnly → mapFragmentToMobile env s fragment = (s, [])) ∧
    (fragmentKind fragment = .error →
      (mapFragmentToMobile env s fragment).1 = { s with mapFile := none } ∧
      (mapFragmentToMobile env s fragment).2 =
        (match s.mapFile with
          | some b => [.deleteTemp b]
          | none => [])) ∧
    (fragmentKind fragment = .data →
      (fragment.progress ≠ 0 → ∀ b, s.mapFile = some b →
        mapFragmentToMobile env s fragment =
          ({ s with mapFile := some (if fragment.total ≤ fragment.current
              then (b.write fragment.data).close else b.write fragment.data) },
            if fragment.total ≤ fragment.current
              then [.importTask (b.write fragment.data).data s.importReplace] else [])) ∧
      (fragment.progress ≠ 0 → s.mapFile = none →
        mapFragmentToMobile env s fragment = (s, [])) ∧
      (fragment.progress = 0 → env.tempOpens = true →
        mapFragmentToMobile env s fragment =
          ({ s with mapFile := some (if fragment.total ≤ fragment.current
              then (QTemporaryFile.write ⟨[], true⟩ fragment.data).close
              else QTemporaryFile.write ⟨[], true⟩ fragment.data) },
            (dropMapFile s).2 ++ (if fragment.total ≤ fragment.current
              then [.importTask (QTemporaryFile.write ⟨[], true⟩ fragment.data).data
                s.importReplace] else []))) ∧
      (fragment.progress = 0 → env.tempOpens = false →
        (mapFragmentToMobile env s fragment).1.mapFile = none ∧
        ∀ d r, Effect.importTask d r ∉ (mapFragmentToMobile env s fragment).2)) ∧
    (∀ p, fragmentKind ⟨0, 0, [49], p⟩ = .progressOnly ∧ fragmentKind ⟨0, 0, [], p⟩ = .error ∧
      fragmentKind ⟨100, 100, [], p⟩ = .data ∧
      (p ≠ 0 → ∀ b, s.mapFile = some b →
        mapFragmentToMobile env s ⟨100, 100, [], p⟩ =
          ({ s with mapFile := some b.close }, [.importTask b.data s.importReplace])) ∧
      (p ≠ 0 → s.mapFile = none → mapFragmentToMobile env s ⟨100, 100, [], p⟩ = (s, []))) ∧
    (env.tempOpens = true →
      mapFragmentToMobile env s ⟨100, 100, [], 0⟩ =
        ({ s with mapFile := some ⟨[], false⟩ },
          (dropMapFile s).2 ++ [.importTask [] s.importReplace])) := by
  refine ⟨?_, ?_, ?_, ?_, ?_, ?_, ?_, ?_⟩
  · unfold fragmentKind
    by_cases h1 : fragment.current = 0 ∧ fragment.total = 0
    · by_cases h2 : fragment.data = [] <;> simp [h1, h2]
    · simp only [h1, if_false]
      constructor
      · intro h; cases h
      · intro h; exact absurd ⟨h.1, h.2.1⟩ h1
  · unfold fragmentKind
    by_cases h1 : fragment.current = 0 ∧ fragment.total = 0
    · by_cases h2 : fragment.data = [] <;> simp [h1, h2]
    · simp only [h1, if_false]
      constructor
      · intro h; cases h
      · intro h; exact absurd ⟨h.1, h.2.1⟩ h1
  · unfold fragmentKind
    by_cases h1 : fragment.current = 0 ∧ fragment.total = 0
    · by_cases h2 : fragment.data = [] <;> simp [h1, h2]
    · simp [h1]
  · intro hk
    unfold fragmentKind at hk
    by_cases h1 : fragment.current = 0 ∧ fragment.total = 0
    · by_cases h2 : fragment.data.length ≠ 0
      · unfold mapFragmentToMobile
        rw [if_neg (by simp [hc]), if_pos h1, if_pos h2]
      · rw [if_pos h1, if_neg h2] at hk
        cases hk
    · rw [if_neg h1] at hk
      cases hk
  · intro hk
    unfold fragmentKind at hk
    by_cases h1 : fragment.current = 0 ∧ fragment.total = 0
    · by_cases h2 : fragment.data.length ≠ 0
      · rw [if_pos h1, if_pos h2] at hk
        cases hk
      · unfold mapFragmentToMobile
        rw [if_neg (by simp [hc]), if_pos h1, if_neg h2]
        unfold dropMapFile
        cases hm : s.mapFile with
        | none =>
          refine ⟨?_, rfl⟩
          cases s
          simp_all
        | some b => exact ⟨rfl, rfl⟩
    · rw [if_neg h1] at hk
      cases hk
  · intro hk
    unfold fragmentKind at hk
    by_cases h1 : fragment.current = 0 ∧ fragment.total = 0
    · rw [if_pos h1] at hk
      split at hk <;> cases hk
    · exact mapFragmentToMobile_cases env s hc fragment h1
  · intro p
    refine ⟨by simp [fragmentKind], by simp [fragmentKind], by simp [fragmentKind], ?_, ?_⟩
    · intro hp b hb
      have h := (mapFragmentToMobile_cases env s hc ⟨100, 100, [], p⟩ (by simp)).1 hp b hb
      simpa [write_nil] using h
    · intro hp hm
      exact (mapFragmentToMobile_cases env s hc ⟨100, 100, [], p⟩ (by simp)).2.1 hp hm
  · intro ht
    have h := (mapFragmentToMobile_cases env s hc ⟨100, 100, [], 0⟩ (by simp)).2.2.1 rfl ht
    simpa [write_nil, QTemporaryFile.close] using h

/-- C3 as the code has it, at a session with a buffer of three bytes in
progress: `{100, 100, ""}` with sequence number 5 closes it and hands it to
the import task. -/
theorem C3_sentinel_distinguishability_witness :
    mapFragmentToMobile ⟨[], [], fun _ _ => true, fun _ => true, fun _ => true, fun _ => true,
        true, []⟩ ⟨false, .SyncClone, false, false, some ⟨[1, 2, 3], true⟩, 0, false, []⟩
      ⟨100, 100, [], 5⟩ =
      ({ (⟨false, .SyncClone, false, false, some ⟨[1, 2, 3], true⟩, 0, false, []⟩ :
            QGCSyncFilesMobile) with
          mapFile := some (QTemporaryFile.close ⟨[1, 2, 3], true⟩) },
        [.importTask [1, 2, 3] false]) :=
  ((C3_sentinel_distinguishability ⟨[], [], fun _ _ => true, fun _ => true, fun _ => true,
      fun _ => true, true, []⟩ ⟨false, .SyncClone, false, false, some ⟨[1, 2, 3], true⟩, 0, false, []⟩
    rfl ⟨0, 0, [], 0⟩).2.2.2.2.2.2.1 5).2.2.2.1 (by decide) ⟨[1, 2, 3], true⟩ rfl

/-! ## Open failure in the log batch -/

theorem mem_fragmentsOf {F : Type} (t : List (WorkerEvent F)) (x : F) :
    x ∈ fragmentsOf t ↔ WorkerEvent.fragment x ∈ t := by
  unfold fragmentsOf
  rw [List.mem_filterMap]
  constructor
  · rintro ⟨e, he, h⟩
    cases e <;> simp at h
    subst h
    exact he
  · intro h
    exact ⟨_, h, rfl⟩

/-- Every fragment an upload loop emits carries a non-empty read. -/
theorem sendLoop_fragment_data {F : Type} (mk : Nat → QByteArray → Int → F) (total : Nat)
    (cancel : Nat → Bool) (reads : List QByteArray) :
    ∀ (sofar : Nat) (seg : Int) (k : Nat) (x : F),
      WorkerEvent.fragment x ∈ (sendLoop mk total cancel reads sofar seg k).1 →
      ∃ s b g, x = mk s b g ∧ b ≠ [] := by
  induction reads with
  | nil =>
    intro sofar seg k x hx
    rw [sendLoop_nil] at hx
    split at hx <;> simp at hx
  | cons b rest ih =>
    intro sofar seg k x hx
    rw [sendLoop_cons] at hx
    split at hx
    · simp at hx
    · split at hx
      · simp at hx
      · rename_i hb
        have hb' : b ≠ [] := fun h => hb (by rw [h]; rfl)
        split at hx
        · simp at hx
          exact ⟨_, _, _, hx, hb'⟩
        · split at hx
          · simp only [List.mem_cons, List.mem_append] at hx
            rcases hx with hx | hx | hx | hx | hx
            · cases hx
            · cases hx
            · cases hx
              exact ⟨_, _, _, rfl, hb'⟩
            · have := (mem_fragmentsOf _ x).2 hx
              rw [fragmentsOf_throttle] at this
              cases this
            · exact ih _ _ _ x hx
          · simp only [List.mem_cons] at hx
            rcases hx with hx | hx | hx | hx
            · cases hx
            · cases hx
            · cases hx
              exact ⟨_, _, _, rfl, hb'⟩
            · exact ih _ _ _ x hx

/-- The log loop over files that all open, flag never seen set, runs every file
and then whatever follows. -/
theorem logSyncLoop_append (pre rest : List SourceFile) (hpre : ∀ g ∈ pre, g.opens = true) :
    ∀ k, logSyncLoop (fun _ => false) (pre ++ rest) k =
      ((logSyncLoop (fun _ => false) pre k).1 ++
        (logSyncLoop (fun _ => false) rest (logSyncLoop (fun _ => false) pre k).2).1,
        (logSyncLoop (fun _ => false) rest (logSyncLoop (fun _ => false) pre k).2).2) := by
  induction pre with
  | nil => intro k; simp [logSyncLoop]
  | cons g pre ih =>
    intro k
    have hg : g.opens = true := hpre g (List.mem_cons_self _ _)
    have ih' := ih (fun x hx => hpre x (List.mem_cons_of_mem _ hx))
    rw [List.cons_append, logSyncLoop_cons, logSyncLoop_cons, if_neg (by simp),
      if_neg (by simp [hg]), if_neg (by simp), if_neg (by simp [hg]), ih']
    simp only [List.cons_append, List.append_assoc]

/-- Fragments of the log loop over files that all open carry payload. -/
theorem logSyncLoop_fragment_data (pre : List SourceFile) (hpre : ∀ g ∈ pre, g.opens = true)
    (cancel : Nat → Bool) :
    ∀ k x, WorkerEvent.fragment x ∈ (logSyncLoop cancel pre k).1 → x.data ≠ [] := by
  induction pre with
  | nil => intro k x hx; simp [logSyncLoop] at hx
  | cons g pre ih =>
    intro k x hx
    have hg : g.opens = true := hpre g (List.mem_cons_self _ _)
    rw [logSyncLoop_cons] at hx
    split at hx
    · simp at hx
    · rw [if_neg (by simp [hg])] at hx
      simp only [List.mem_cons, List.mem_append] at hx
      rcases hx with hx | hx | hx | hx
      · cases hx
      · cases hx
      · obtain ⟨s, b, _, hx, hb⟩ := sendLoop_fragment_data _ _ _ _ _ _ _ x hx
        rw [hx]
        exact hb
      · exact ih (fun y hy => hpre y (List.mem_cons_of_mem _ hy)) _ x hx

/-- C4 as the code has it.  With the cancellation flag never seen set, when
opening a file of the batch fails (every earlier file having opened), `doLogSync`
emits, after the fragments of the earlier files, exactly one payload-absent
sentinel `(name, 0, 0, "")` named after that file, and the batch ends there: the
run is the same whatever files follow, none of them is opened or read, and
`done` is signalled once, last. -/
theorem C4_open_failure_ends_batch (pre post : List SourceFile) (f : SourceFile)
    (hpre : ∀ g ∈ pre, g.opens = true) (hf : f.opens = false) :
    doLogSync (pre ++ f :: post) (fun _ => false) = doLogSync (pre ++ [f]) (fun _ => false) ∧
    fragmentsOf (doLogSync (pre ++ f :: post) (fun _ => false)) =
      fragmentsOf (doLogSync pre (fun _ => false)) ++ [⟨fileName f.filePath, 0, 0, []⟩] ∧
    (fragmentsOf (doLogSync (pre ++ f :: post) (fun _ => false))).filter
      (fun x => x.data.isEmpty) = [⟨fileName f.filePath, 0, 0, []⟩] ∧
    donesOf (doLogSync (pre ++ f :: post) (fun _ => false)) = 1 ∧
    (doLogSync (pre ++ f :: post) (fun _ => false)).getLast? = some .done := by
  have hstop : ∀ (rest : List SourceFile) (k : Nat),
      logSyncLoop (fun _ => false) (f :: rest) k =
        ([.cancelCheck false, .opened false, .fragment ⟨fileName f.filePath, 0, 0, []⟩],
          k + 1) := by
    intro rest k
    rw [logSyncLoop_cons, if_neg (by simp), if_pos hf]
  have hrun : ∀ rest : List SourceFile, doLogSync (pre ++ f :: rest) (fun _ => false) =
      (logSyncLoop (fun _ => false) pre 0).1 ++
        [.cancelCheck false, .opened false, .fragment ⟨fileName f.filePath, 0, 0, []⟩,
          .cancelCheck false, .done] := by
    intro rest
    rw [doLogSync, logSyncLoop_append pre _ hpre, hstop]
    simp
  have hfr : fragmentsOf (doLogSync (pre ++ f :: post) (fun _ => false)) =
      fragmentsOf (doLogSync pre (fun _ => false)) ++ [⟨fileName f.filePath, 0, 0, []⟩] := by
    rw [hrun, doLogSync]
    simp
  refine ⟨by rw [hrun, hrun], hfr, ?_, (doLogSync_done _ _).1, (doLogSync_done _ _).2⟩
  rw [hfr, List.filter_append]
  have hnone : (fragmentsOf (doLogSync pre (fun _ => false))).filter
      (fun x => x.data.isEmpty) = [] := by
    rw [List.filter_eq_nil_iff]
    intro x hx
    rw [doLogSync, fragmentsOf_append] at hx
    simp only [fragmentsOf_cons_cancelCheck, fragmentsOf_cons_done, fragmentsOf_nil,
      List.append_nil] at hx
    have := logSyncLoop_fragment_data pre hpre _ 0 x ((mem_fragmentsOf _ x).1 hx)
    simpa using this
  rw [hnone]
  rfl

/-- C4 as the code has it, at a batch of a readable file, a file that does not
open and a second readable file. -/
theorem C4_open_failure_ends_batch_witness :
    fragmentsOf (doLogSync ([⟨"/l/a.tlog".toList, true, 1, [[7]]⟩] ++
        ⟨"/l/b.tlog".toList, false, 1, [[8]]⟩ :: [⟨"/l/c.tlog".toList, true, 1, [[9]]⟩])
        (fun _ => false)) =
      fragmentsOf (doLogSync [⟨"/l/a.tlog".toList, true, 1, [[7]]⟩] (fun _ => false)) ++
        [⟨fileName "/l/b.tlog".toList, 0, 0, []⟩] :=
  (C4_open_failure_ends_batch [⟨"/l/a.tlog".toList, true, 1, [[7]]⟩]
    [⟨"/l/c.tlog".toList, true, 1, [[9]]⟩] ⟨"/l/b.tlog".toList, false, 1, [[8]]⟩
    (by decide) rfl).2.1

/-- C4 fails as stated: in the batch of a file that does not open followed by a
readable file of one byte, the only fragment emitted is the sentinel of the
first; the fragment the second file gives when sent alone is never emitted. -/
theorem C4_later_files_not_processed :
    fragmentsOf (doLogSync [⟨"/l/a.tlog".toList, false, 1, [[7]]⟩,
        ⟨"/l/b.tlog".toList, true, 1, [[8]]⟩] (fun _ => false)) =
      [⟨"a.tlog".toList, 0, 0, []⟩] ∧
    fragmentsOf (doLogSync [⟨"/l/b.tlog".toList, true, 1, [[8]]⟩] (fun _ => false)) =
      [⟨"b.tlog".toList, 1, 1, [8]⟩] ∧
    readsOf (doLogSync [⟨"/l/a.tlog".toList, false, 1, [[7]]⟩,
        ⟨"/l/b.tlog".toList, true, 1, [[8]]⟩] (fun _ => false)) = [] := by
  decide

/-! ## Mission naming -/

/-- C5 fails on the code.  `_processIncomingMission` inserts the count with
`QString::replace`, which rewrites every `.plan` of the path.  With save path
`/m`, the file `/m/a.plan.b.plan` on disk and append mode, pushing the mission
`a.plan.b` writes `/m/a-1.plan.b-1.plan`, where the suffix should go before the
trailing extension only (`/m/a.plan.b-1.plan`); with save path `/my.plans` the
candidate for count 1 lies in another directory, `/my-1.plans`. -/
theorem C5_count_rewrites_every_extension :
    missionToMobile ⟨"/m".toList, "/l".toList, fun w n => endsWith n (w.drop 1), fun _ => true,
        fun _ => true, fun _ => true, true, []⟩
      ⟨false, .SyncAppend, false, false, none, 0, false, []⟩
      [⟨"/m/a.plan.b.plan".toList, [1]⟩] ⟨"a.plan.b".toList, [2]⟩ =
      some (⟨false, .SyncAppend, false, false, none, 0, false,
          [("a.plan.b.plan".toList, 1), ("a-1.plan.b-1.plan".toList, 1)]⟩,
        [⟨"/m/a.plan.b.plan".toList, [1]⟩, ⟨"/m/a-1.plan.b-1.plan".toList, [2]⟩]) ∧
    (_processIncomingMission ⟨"/my.plans".toList, "/l".toList, fun w n => endsWith n (w.drop 1),
        fun _ => true, fun _ => true, fun _ => true, true, []⟩
      [⟨"/my.plans/x.plan".toList, [1]⟩] "x".toList 1).1 = "/my-1.plans/x-1.plan".toList := by
  decide

/-! ## Pruning -/

theorem foldl_removeFile (env : Env) (hrm : ∀ p, env.canRemove p = true) (ps : List QString) :
    ∀ fs : FileSystem, ps.foldl (removeFile env) fs =
      fs.filter fun f => !ps.contains f.filePath := by
  induction ps with
  | nil => intro fs; simp
  | cons p ps ih =>
    intro fs
    rw [List.foldl_cons, ih, removeFile, if_pos (hrm p), List.filter_filter]
    apply List.filter_congr
    intro f _
    by_cases h : f.filePath = p <;> simp [h]

theorem entryList_missions (env : Env) (fs : FileSystem) :
    entryList env fs env.missionSavePath kMissionWildCard = fs.filter (isMissionFile env) := rfl

/-- The file system after a prune in which every removal succeeds. -/
theorem prune_files (env : Env) (hrm : ∀ p, env.canRemove p = true) (s : QGCSyncFilesMobile)
    (fs : FileSystem) (allMissions : List QString) :
    (pruneExtraMissionsOnMobile env s fs allMissions).2 =
      fs.filter fun f => !(isMissionFile env f && !allMissions.contains (fileName f.filePath)) := by
  unfold pruneExtraMissionsOnMobile
  simp only
  rw [foldl_removeFile env hrm]
  apply List.filter_congr
  intro f hf
  congr 1
  rw [Bool.eq_iff_iff]
  simp only [missionsToPrune, entryList_missions, List.contains_iff_exists_mem_beq,
    List.mem_map, List.mem_filter, Bool.and_eq_true, Bool.not_eq_true', beq_iff_eq]
  constructor
  · rintro ⟨p, ⟨g, ⟨⟨_, hg1⟩, hg2⟩, rfl⟩, hp⟩
    unfold isMissionFile at hg1 ⊢
    rw [hp]
    refine ⟨hg1, ?_⟩
    simpa using hg2
  · rintro ⟨h1, h2⟩
    refine ⟨f.filePath, ⟨f, ⟨⟨hf, h1⟩, ?_⟩, rfl⟩, rfl⟩
    simpa using h2

/-- C6 (prune).  When every removal succeeds, after
`pruneExtraMissionsOnMobile` the `*.plan` files of the mission directory are
exactly the former ones whose file name is in the keep-set, every other file is
untouched, and the published mission list is the list of the remaining `*.plan`
files.  Hence pruning with the names of the current catalog removes nothing,
pruning twice with one keep-set is pruning once, and pruning with the empty
keep-set leaves no `*.plan` file. -/
theorem C6_prune (env : Env) (hrm : ∀ p, env.canRemove p = true) (s : QGCSyncFilesMobile)
    (fs : FileSystem) (allMissions : List QString) :
    entryList env (pruneExtraMissionsOnMobile env s fs allMissions).2 env.missionSavePath
        kMissionWildCard =
      (entryList env fs env.missionSavePath kMissionWildCard).filter
        (fun f => allMissions.contains (fileName f.filePath)) ∧
    (pruneExtraMissionsOnMobile env s fs allMissions).2.filter (fun f => !isMissionFile env f) =
      fs.filter (fun f => !isMissionFile env f) ∧
    (pruneExtraMissionsOnMobile env s fs allMissions).1.missionEntriesOnMobile =
      (entryList env (pruneExtraMissionsOnMobile env s fs allMissions).2 env.missionSavePath
        kMissionWildCard).map (fun f => (fileName f.filePath, f.data.length)) ∧
    (pruneExtraMissionsOnMobile env s fs
        ((_updateMissionsOnMobile env s fs).missionEntriesOnMobile.map Prod.fst)).2 = fs ∧
    pruneExtraMissionsOnMobile env (pruneExtraMissionsOnMobile env s fs allMissions).1
        (pruneExtraMissionsOnMobile env s fs allMissions).2 allMissions =
      pruneExtraMissionsOnMobile env s fs allMissions ∧
    entryList env (pruneExtraMissionsOnMobile env s fs []).2 env.missionSavePath
        kMissionWildCard = [] := by
  have hent : ∀ keep : List QString,
      entryList env (pruneExtraMissionsOnMobile env s fs keep).2 env.missionSavePath
          kMissionWildCard =
        (entryList env fs env.missionSavePath kMissionWildCard).filter
          (fun f => keep.contains (fileName f.filePath)) := by
    intro keep
    rw [entryList_missions, entryList_missions, prune_files env hrm, List.filter_filter,
      List.filter_filter]
    apply List.filter_congr
    intro f _
    cases isMissionFile env f <;> cases keep.contains (fileName f.filePath) <;> rfl
  have hidem : ∀ (t : QGCSyncFilesMobile),
      (pruneExtraMissionsOnMobile env t (pruneExtraMissionsOnMobile env s fs allMissions).2
        allMissions).2 = (pruneExtraMissionsOnMobile env s fs allMissions).2 := by
    intro t
    rw [prune_files env hrm t, prune_files env hrm s, List.filter_filter]
    apply List.filter_congr
    intro f _
    cases isMissionFile env f <;> cases allMissions.contains (fileName f.filePath) <;> rfl
  refine ⟨hent allMissions, ?_, rfl, ?_, ?_, ?_⟩
  · rw [prune_files env hrm, List.filter_filter]
    apply List.filter_congr
    intro f _
    cases isMissionFile env f <;> cases allMissions.contains (fileName f.filePath) <;> rfl
  · rw [prune_files env hrm]
    apply List.filter_eq_self.2
    intro f hf
    simp only [_updateMissionsOnMobile, entryList_missions, List.map_map, Bool.not_eq_true',
      Bool.and_eq_false_imp, Bool.not_eq_false']
    intro hm
    rw [List.contains_iff_exists_mem_beq]
    exact ⟨fileName f.filePath, List.mem_map.2 ⟨f, List.mem_filter.2 ⟨hf, hm⟩, rfl⟩, by simp⟩
  · have h2 := hidem (pruneExtraMissionsOnMobile env s fs allMissions).1
    refine Prod.ext ?_ h2
    have h1 : ∀ (t : QGCSyncFilesMobile) (g : FileSystem) (keep : List QString),
        (pruneExtraMissionsOnMobile env t g keep).1 =
          _updateMissionsOnMobile env t (pruneExtraMissionsOnMobile env t g keep).2 :=
      fun _ _ _ => rfl
    rw [h1, h2, h1 s]
    rfl
  · rw [hent]
    simp

/-- C6 at a directory of two plans and a log, keeping one plan. -/
theorem C6_prune_witness :
    entryList ⟨"/m".toList, "/l".toList, fun w n => endsWith n (w.drop 1), fun _ => true,
        fun _ => true, fun _ => true, true, []⟩
      (pruneExtraMissionsOnMobile ⟨"/m".toList, "/l".toList, fun w n => endsWith n (w.drop 1),
        fun _ => true, fun _ => true, fun _ => true, true, []⟩
        ⟨false, .SyncClone, false, false, none, 0, false, []⟩
        [⟨"/m/a.plan".toList, [1]⟩, ⟨"/m/b.plan".toList, [2]⟩, ⟨"/m/c.txt".toList, [3]⟩]
        ["b.plan".toList]).2 "/m".toList kMissionWildCard =
      (entryList ⟨"/m".toList, "/l".toList, fun w n => endsWith n (w.drop 1), fun _ => true,
        fun _ => true, fun _ => true, true, []⟩
        [⟨"/m/a.plan".toList, [1]⟩, ⟨"/m/b.plan".toList, [2]⟩, ⟨"/m/c.txt".toList, [3]⟩]
        "/m".toList kMissionWildCard).filter
        (fun f => ["b.plan".toList].contains (fileName f.filePath)) :=
  (C6_prune ⟨"/m".toList, "/l".toList, fun w n => endsWith n (w.drop 1), fun _ => true,
      fun _ => true, fun _ => true, true, []⟩ (fun _ => rfl)
    ⟨false, .SyncClone, false, false, none, 0, false, []⟩
    [⟨"/m/a.plan".toList, [1]⟩, ⟨"/m/b.plan".toList, [2]⟩, ⟨"/m/c.txt".toList, [3]⟩]
    ["b.plan".toList]).1

/-! ## Requests of the desktop peer -/

/-- C7 fails as stated: with the cancellation flag set, no log worker active and
no requested name on disk, `requestLogsFromMobile` starts no worker and delivers
nothing, because `_logFragment` drops the sentinel. -/
theorem C7_no_answer_while_cancelled :
    requestLogsFromMobile ⟨"/m".toList, "/l".toList, fun w n => endsWith n (w.drop 1),
        fun _ => true, fun _ => true, fun _ => true, true, []⟩
      ⟨true, .SyncClone, false, false, none, 0, false, []⟩
      [⟨"/l/a.tlog".toList, [1]⟩] ["b.tlog".toList] =
      (⟨true, .SyncClone, false, false, none, 0, false, []⟩, []) := by
  decide

/-- C7 as the code has it.  For every session state and every list of requested
names, `requestLogsFromMobile` starts a log worker if and only if no log worker
is active and at least one requested name is an existing `*.tlog` file of the
log directory, and then the worker is started over exactly those files.  In
every other case it starts no worker, changes nothing and hands exactly one
empty fragment `("", 0, 0, "")` to the relay `_logFragment`, which delivers it
to the peer when the cancellation flag is clear. -/
theorem C7_request_logs (env : Env) (s : QGCSyncFilesMobile) (fs : FileSystem)
    (logs : List QString) :
    (∀ p, p ∈ logsToSend env fs logs ↔
      ∃ f ∈ fs, f.filePath = p ∧ dirPart p = withSlash env.telemetrySavePath ∧
        env.nameFilter kLogWildCard (fileName p) = true ∧ fileName p ∈ logs) ∧
    ((∃ l, Effect.doLogSync l ∈ (requestLogsFromMobile env s fs logs).2) ↔
      s.logWorker = false ∧ logsToSend env fs logs ≠ []) ∧
    (s.logWorker = false ∧ logsToSend env fs logs ≠ [] →
      (requestLogsFromMobile env s fs logs).1.logWorker = true ∧
      (requestLogsFromMobile env s fs logs).2 =
        [.setCancel false, .threadStart, .doLogSync (logsToSend env fs logs)]) ∧
    (¬ (s.logWorker = false ∧ logsToSend env fs logs ≠ []) →
      (requestLogsFromMobile env s fs logs).1 = s ∧
      (requestLogsFromMobile env s fs logs).2 = _logFragment s ⟨[], 0, 0, []⟩ ∧
      (s.cancel = false →
        (requestLogsFromMobile env s fs logs).2 = [.logFragment ⟨[], 0, 0, []⟩])) := by
  have hstart : s.logWorker = false ∧ logsToSend env fs logs ≠ [] →
      requestLogsFromMobile env s fs logs =
        ({ s with cancel := false, logWorker := true },
          [.setCancel false, .threadStart, .doLogSync (logsToSend env fs logs)]) := by
    intro h
    unfold requestLogsFromMobile
    rw [if_neg]
    simp [h.1, h.2]
  have hbail : ¬ (s.logWorker = false ∧ logsToSend env fs logs ≠ []) →
      requestLogsFromMobile env s fs logs = (s, _logFragment s ⟨[], 0, 0, []⟩) := by
    intro h
    unfold requestLogsFromMobile
    rw [if_pos]
    by_cases hw : s.logWorker = true
    · exact Or.inr hw
    · left
      have : logsToSend env fs logs = [] := by
        by_contra hne
        exact h ⟨by simpa using hw, hne⟩
      rw [this]
      rfl
  refine ⟨?_, ?_, ?_, ?_⟩
  · intro p
    simp only [logsToSend, entryList, List.mem_map, List.mem_filter, Bool.and_eq_true,
      beq_iff_eq, List.contains_iff_exists_mem_beq]
    constructor
    · rintro ⟨f, ⟨⟨hf, hd, hn⟩, ⟨q, hq, hqe⟩⟩, rfl⟩
      exact ⟨f, hf, rfl, hd, hn, by rw [hqe]; exact hq⟩
    · rintro ⟨f, hf, rfl, hd, hn, hl⟩
      exact ⟨f, ⟨⟨hf, hd, hn⟩, ⟨_, hl, rfl⟩⟩, rfl⟩
  · by_cases h : s.logWorker = false ∧ logsToSend env fs logs ≠ []
    · rw [hstart h]
      simp [h.1, h.2]
    · rw [hbail h]
      simp only [h, iff_false, not_exists]
      intro l
      unfold _logFragment
      split <;> simp
  · intro h
    rw [hstart h]
    exact ⟨rfl, rfl⟩
  · intro h
    rw [hbail h]
    refine ⟨rfl, rfl, ?_⟩
    intro hc
    simp [_logFragment, hc]

/-- C7 as the code has it, at a request for a log that is not on disk, flag
clear: one empty fragment is delivered. -/
theorem C7_request_logs_witness :
    (requestLogsFromMobile ⟨"/m".toList, "/l".toList, fun w n => endsWith n (w.drop 1),
        fun _ => true, fun _ => true, fun _ => true, true, []⟩
      ⟨false, .SyncClone, false, false, none, 0, false, []⟩
      [⟨"/l/a.tlog".toList, [1]⟩] ["b.tlog".toList]).2 = [.logFragment ⟨[], 0, 0, []⟩] :=
  ((C7_request_logs ⟨"/m".toList, "/l".toList, fun w n => endsWith n (w.drop 1),
      fun _ => true, fun _ => true, fun _ => true, true, []⟩
    ⟨false, .SyncClone, false, false, none, 0, false, []⟩
    [⟨"/l/a.tlog".toList, [1]⟩] ["b.tlog".toList]).2.2.2 (by decide)).2.2 rfl

/-! ## The cancellation flag across requests -/

/-- C8 fails as stated: entered with the cancellation flag set, a request for a
log that is not on disk, a prune and an inbound map fragment all leave the flag
set and never clear it; the map fragment is dropped because the flag is set. -/
theorem C8_flag_survives_requests :
    requestLogsFromMobile ⟨"/m".toList, "/l".toList, fun w n => endsWith n (w.drop 1),
        fun _ => true, fun _ => true, fun _ => true, true, []⟩
      ⟨true, .SyncClone, false, false, none, 0, false, []⟩ [] ["b.tlog".toList] =
      (⟨true, .SyncClone, false, false, none, 0, false, []⟩, []) ∧
    (pruneExtraMissionsOnMobile ⟨"/m".toList, "/l".toList, fun w n => endsWith n (w.drop 1),
        fun _ => true, fun _ => true, fun _ => true, true, []⟩
      ⟨true, .SyncClone, false, false, none, 0, false, []⟩ [] []).1.cancel = true ∧
    mapFragmentToMobile ⟨"/m".toList, "/l".toList, fun w n => endsWith n (w.drop 1),
        fun _ => true, fun _ => true, fun _ => true, true, []⟩
      ⟨true, .SyncClone, false, false, some ⟨[1], true⟩, 0, false, []⟩ ⟨2, 2, [7], 1⟩ =
      (⟨true, .SyncClone, false, false, none, 0, false, []⟩, [.deleteTemp ⟨[1], true⟩]) := by
  decide

theorem dropMapFile_cancel (s : QGCSyncFilesMobile) :
    (dropMapFile s).1.cancel = s.cancel ∧ ∀ b, Effect.setCancel b ∉ (dropMapFile s).2 := by
  unfold dropMapFile
  cases s.mapFile <;> simp

/-- The inbound map fragment slot never writes the cancellation flag. -/
theorem mapFragmentToMobile_cancel (env : Env) (s : QGCSyncFilesMobile)
    (fragment : QGCMapFragment) :
    (mapFragmentToMobile env s fragment).1.cancel = s.cancel ∧
      ∀ b, Effect.setCancel b ∉ (mapFragmentToMobile env s fragment).2 := by
  have hd := dropMapFile_cancel s
  unfold mapFragmentToMobile
  split
  · exact hd
  · split
    · split
      · simp
      · exact hd
    · by_cases hp : fragment.progress = 0
      · by_cases ht : env.tempOpens = true
        · simp only [hp, ht, if_true, Bool.not_true, Bool.false_eq_true, if_false]
          by_cases hfin : fragment.total ≤ fragment.current <;> simp [hfin, hd.1, hd.2]
        · simp only [hp, ht, if_true, Bool.not_eq_true] at *
          simp [hd.1, hd.2, ht]
      · simp only [hp, if_false, Bool.false_eq_true]
        cases hm : s.mapFile with
        | none => simp
        | some f => by_cases hfin : fragment.total ≤ fragment.current <;> simp [hfin]

/-- C8 as the code has it.  `requestMissionsFromMobile` clears the cancellation
flag before anything else it does.  `requestLogsFromMobile` and
`requestMapTilesFromMobile` clear it when they start a transfer, before the
worker or the export task is started, and the flag is clear when they return.
The inbound slots (`missionToMobile`, `mapToMobile`, `mapFragmentToMobile`,
`pruneExtraMissionsOnMobile`) never write the flag. -/
theorem C8_cancellation_reset (env : Env) (s : QGCSyncFilesMobile) (fs : FileSystem) :
    (∀ missions peerCancel,
      (requestMissionsFromMobile env s fs missions peerCancel).2.head? =
        some (.setCancel false)) ∧
    (∀ logs, s.logWorker = false → logsToSend env fs logs ≠ [] →
      (requestLogsFromMobile env s fs logs).2 =
        [.setCancel false, .threadStart, .doLogSync (logsToSend env fs logs)] ∧
      (requestLogsFromMobile env s fs logs).1.cancel = false) ∧
    (∀ sets, env.tempOpens = true → s.mapWorker = false →
      env.tileSets.filter (fun n => sets.contains n) ≠ [] →
      (requestMapTilesFromMobile env s sets).2 =
        [.setCancel false, .exportTask (env.tileSets.filter fun n => sets.contains n)] ∧
      (requestMapTilesFromMobile env s sets).1.cancel = false) ∧
    (∀ mission r, missionToMobile env s fs mission = some r → r.1.cancel = s.cancel) ∧
    (∀ importReplace, (mapToMobile s importReplace).cancel = s.cancel) ∧
    (∀ fragment, (mapFragmentToMobile env s fragment).1.cancel = s.cancel ∧
      ∀ b, Effect.setCancel b ∉ (mapFragmentToMobile env s fragment).2) ∧
    (∀ allMissions, (pruneExtraMissionsOnMobile env s fs allMissions).1.cancel = s.cancel) := by
  refine ⟨?_, ?_, ?_, ?_, ?_, ?_, ?_⟩
  · intro missions peerCancel
    unfold requestMissionsFromMobile
    simp only
    split <;> rfl
  · intro logs hw hl
    unfold requestLogsFromMobile
    rw [if_neg (by simp [hw, hl])]
    exact ⟨rfl, rfl⟩
  · intro sets ht hw hl
    unfold requestMapTilesFromMobile
    simp only
    rw [if_neg (by simp [hw, ht]; simpa using hl)]
    exact ⟨rfl, rfl⟩
  · intro mission r hr
    unfold missionToMobile at hr
    split at hr
    · cases hr
    · split at hr <;> cases hr <;> rfl
  · intro importReplace
    rfl
  · intro fragment
    exact mapFragmentToMobile_cancel env s fragment
  · intro allMissions
    rfl

/-- C8 as the code has it, at a log request that starts a worker from a state
with the flag set. -/
theorem C8_cancellation_reset_witness :
    (requestLogsFromMobile ⟨"/m".toList, "/l".toList, fun w n => endsWith n (w.drop 1),
        fun _ => true, fun _ => true, fun _ => true, true, []⟩
      ⟨true, .SyncClone, false, false, none, 0, false, []⟩
      [⟨"/l/a.tlog".toList, [1]⟩] ["a.tlog".toList]).2 =
      [.setCancel false, .threadStart,
        .doLogSync (logsToSend ⟨"/m".toList, "/l".toList, fun w n => endsWith n (w.drop 1),
          fun _ => true, fun _ => true, fun _ => true, true, []⟩
          [⟨"/l/a.tlog".toList, [1]⟩] ["a.tlog".toList])] ∧
    (requestLogsFromMobile ⟨"/m".toList, "/l".toList, fun w n => endsWith n (w.drop 1),
        fun _ => true, fun _ => true, fun _ => true, true, []⟩
      ⟨true, .SyncClone, false, false, none, 0, false, []⟩
      [⟨"/l/a.tlog".toList, [1]⟩] ["a.tlog".toList]).1.cancel = false :=
  (C8_cancellation_reset ⟨"/m".toList, "/l".toList, fun w n => endsWith n (w.drop 1),
      fun _ => true, fun _ => true, fun _ => true, true, []⟩
    ⟨true, .SyncClone, false, false, none, 0, false, []⟩
    [⟨"/l/a.tlog".toList, [1]⟩]).2.1 ["a.tlog".toList] rfl (by decide)

/-! ## Cancellation of a running worker -/

section settled
variable {F : Type}

theorem settled_of_no_true {t : List (WorkerEvent F)}
    (h : WorkerEvent.cancelCheck true ∉ t) : Settled t := by
  intro pre post heq
  exact absurd (by rw [heq]; simp) h

theorem settled_append {a b : List (WorkerEvent F)} (ha : Settled a) (hb : Settled b)
    (hab : WorkerEvent.cancelCheck true ∈ a → Quiet b) : Settled (a ++ b) := by
  intro pre post heq
  rcases List.append_eq_append_iff.1 heq with ⟨a', _, h2⟩ | ⟨c', h1, h2⟩
  · -- the check lies in `b`
    exact hb a' post h2
  · cases c' with
    | nil =>
      rw [List.nil_append] at h2
      exact hb [] post h2.symm
    | cons x c' =>
      -- the check lies in `a`
      rw [List.cons_append] at h2
      injection h2 with hx h2
      subst hx
      have hq := ha pre c' h1
      have hbq := hab (by rw [h1]; simp)
      intro e he
      rw [h2, List.mem_append] at he
      rcases he with he | he
      · exact hq e he
      · exact hbq e he

theorem settledUpTo_append {cancel : Nat → Bool}
    (hstay : ∀ i j, i ≤ j → cancel i = true → cancel j = true)
    {k k1 k2 : Nat} {a b : List (WorkerEvent F)}
    (ha : SettledUpTo cancel k a k1) (hb : SettledUpTo cancel k1 b k2)
    (hq : WorkerEvent.cancelCheck true ∈ a → Quiet b) : SettledUpTo cancel k (a ++ b) k2 := by
  refine ⟨le_trans ha.1 hb.1, settled_append ha.2.1 hb.2.1 hq, ?_⟩
  intro h
  rw [List.mem_append] at h
  rcases h with h | h
  · exact hstay _ _ hb.1 (ha.2.2 h)
  · exact hb.2.2 h

theorem settledUpTo_of_no_true (cancel : Nat → Bool) {k k1 : Nat} (hk : k ≤ k1)
    {t : List (WorkerEvent F)} (h : WorkerEvent.cancelCheck true ∉ t) :
    SettledUpTo cancel k t k1 :=
  ⟨hk, settled_of_no_true h, fun h' => absurd h' h⟩

/-- A piece that ends with the first check that sees the flag set. -/
theorem settledUpTo_stop {cancel : Nat → Bool}
    (hstay : ∀ i j, i ≤ j → cancel i = true → cancel j = true) {k : Nat}
    (hc : cancel k = true) (t : List (WorkerEvent F))
    (h : WorkerEvent.cancelCheck true ∉ t) :
    SettledUpTo cancel k (t ++ [.cancelCheck true]) (k + 1) := by
  refine ⟨Nat.le_succ k, settled_append (settled_of_no_true h) ?_ (fun h' => absurd h' h),
    fun _ => hstay k (k + 1) (Nat.le_succ k) hc⟩
  intro pre post heq
  cases pre with
  | nil =>
    rw [List.nil_append] at heq
    injection heq with _ h2
    rw [← h2]
    intro e he
    cases he
  | cons x pre =>
    rw [List.cons_append] at heq
    injection heq with _ h2
    cases pre <;> simp at h2

theorem settledUpTo_throttle {cancel : Nat → Bool}
    (hstay : ∀ i j, i ≤ j → cancel i = true → cancel j = true) (n : Nat) :
    ∀ k, SettledUpTo cancel k (throttle cancel n k : List (WorkerEvent F) × Nat).1
      (throttle cancel n k : List (WorkerEvent F) × Nat).2 := by
  induction n with
  | zero =>
    intro k
    exact settledUpTo_of_no_true cancel (le_refl k) (by simp [throttle])
  | succ n ih =>
    intro k
    rw [throttle_succ]
    split
    · rename_i hc
      exact settledUpTo_stop hstay hc [.msleep 10] (by simp)
    · have h1 : SettledUpTo cancel k
          ([.msleep 10, .cancelCheck false] : List (WorkerEvent F)) (k + 1) :=
        settledUpTo_of_no_true cancel (Nat.le_succ k) (by simp)
      have := settledUpTo_append hstay h1 (ih (k + 1)) (fun h => absurd h (by simp))
      simpa using this

/-- Entered with the flag set, the upload loop does one check and leaves. -/
theorem sendLoop_of_cancel (mk : Nat → QByteArray → Int → F) (total : Nat)
    {cancel : Nat → Bool} (reads : List QByteArray) (sofar : Nat) (seg : Int) {k : Nat}
    (hc : cancel k = true) :
    sendLoop mk total cancel reads sofar seg k = ([.cancelCheck true], k + 1) := by
  cases reads with
  | nil => rw [sendLoop_nil, if_pos hc]
  | cons b rest => rw [sendLoop_cons, if_pos hc]

theorem quiet_single : Quiet ([.cancelCheck true] : List (WorkerEvent F)) := by
  intro e he
  simp at he
  exact Or.inl he

theorem settledUpTo_sendLoop (mk : Nat → QByteArray → Int → F) (total : Nat)
    {cancel : Nat → Bool} (hstay : ∀ i j, i ≤ j → cancel i = true → cancel j = true)
    (reads : List QByteArray) :
    ∀ (sofar : Nat) (seg : Int) (k : Nat),
      SettledUpTo cancel k (sendLoop mk total cancel reads sofar seg k).1
        (sendLoop mk total cancel reads sofar seg k).2 := by
  induction reads with
  | nil =>
    intro sofar seg k
    rw [sendLoop_nil]
    split
    · rename_i hc
      exact settledUpTo_stop hstay hc [] (by simp)
    · exact settledUpTo_of_no_true cancel (Nat.le_succ k) (by simp)
  | cons b rest ih =>
    intro sofar seg k
    rw [sendLoop_cons]
    split
    · rename_i hc
      exact settledUpTo_stop hstay hc [] (by simp)
    · split
      · exact settledUpTo_of_no_true cancel (Nat.le_succ k) (by simp)
      · split
        · exact settledUpTo_of_no_true cancel (Nat.le_succ k) (by simp)
        · have h1 : SettledUpTo cancel k ([.cancelCheck false, .read b,
              .fragment (mk (quint64 (sofar + b.length)) b seg)] : List (WorkerEvent F))
              (k + 1) :=
            settledUpTo_of_no_true cancel (Nat.le_succ k) (by simp)
          split
          · have h2 := settledUpTo_append hstay h1
              (settledUpTo_throttle (F := F) hstay 10 (k + 1)) (fun h => absurd h (by simp))
            have h3 := settledUpTo_append hstay h2
              (ih (quint64 (sofar + b.length)) (seg + 1)
                (throttle cancel 10 (k + 1) : List (WorkerEvent F) × Nat).2)
              (fun h => by
                rw [sendLoop_of_cancel mk total rest _ _ (h2.2.2 h)]
                exact quiet_single)
            simpa using h3
          · have h3 := settledUpTo_append hstay h1
              (ih (quint64 (sofar + b.length)) (seg + 1) (k + 1))
              (fun h => absurd h (by simp))
            simpa using h3

theorem logSyncLoop_of_cancel {cancel : Nat → Bool} (files : List SourceFile) {k : Nat}
    (hc : cancel k = true) : Quiet (logSyncLoop cancel files k).1 := by
  cases files with
  | nil =>
    intro e he
    simp [logSyncLoop] at he
  | cons f rest =>
    rw [logSyncLoop_cons, if_pos hc]
    exact quiet_single

theorem settledUpTo_logSyncLoop {cancel : Nat → Bool}
    (hstay : ∀ i j, i ≤ j → cancel i = true → cancel j = true) (files : List SourceFile) :
    ∀ k, SettledUpTo cancel k (logSyncLoop cancel files k).1 (logSyncLoop cancel files k).2 := by
  induction files with
  | nil =>
    intro k
    exact settledUpTo_of_no_true cancel (le_refl k) (by simp [logSyncLoop])
  | cons f rest ih =>
    intro k
    rw [logSyncLoop_cons]
    split
    · rename_i hc
      exact settledUpTo_stop hstay hc [] (by simp)
    · split
      · exact settledUpTo_of_no_true cancel (Nat.le_succ k) (by simp)
      · have h1 : SettledUpTo cancel k ([.cancelCheck false, .opened true] :
            List (WorkerEvent QGCLogFragment)) (k + 1) :=
          settledUpTo_of_no_true cancel (Nat.le_succ k) (by simp)
        have h2 := settledUpTo_append hstay h1
          (settledUpTo_sendLoop (fun sofar bytes _ => QGCLogFragment.mk (fileName f.filePath)
            sofar (quint64 f.size) bytes) (quint64 f.size) hstay f.reads 0 0 (k + 1))
          (fun h => absurd h (by simp))
        have h3 := settledUpTo_append hstay h2 (ih _)
          (fun h => logSyncLoop_of_cancel rest (h2.2.2 h))
        simpa using h3

theorem settled_singleton (e : WorkerEvent F) : Settled [e] := by
  intro pre post heq
  cases pre with
  | nil =>
    rw [List.nil_append] at heq
    injection heq with _ h2
    rw [← h2]
    intro x hx
    cases hx
  | cons x pre =>
    rw [List.cons_append] at heq
    injection heq with _ h2
    cases pre <;> simp at h2

theorem quiet_done : Quiet ([.done] : List (WorkerEvent F)) := by
  intro e he
  simp at he
  exact Or.inr he

/-- A run that ends with the final check of the flag and `done`. -/
theorem settled_finish (a tail : List (WorkerEvent F)) (ha : Settled a)
    (htail : tail = [.cancelCheck true] ∨ WorkerEvent.cancelCheck true ∉ tail)
    (h : WorkerEvent.cancelCheck true ∈ a → tail = [.cancelCheck true]) :
    Settled (a ++ tail ++ [.done]) := by
  have hq : Quiet ([.cancelCheck true] ++ [.done] : List (WorkerEvent F)) := by
    intro e he
    simp at he
    exact he
  rw [List.append_assoc]
  refine settled_append ha ?_ (fun hin => by rw [h hin]; exact hq)
  rcases htail with ht | ht
  · rw [ht]
    exact settled_append (settled_singleton _) (settled_singleton _) (fun _ => quiet_done)
  · exact settled_append (settled_of_no_true ht) (settled_singleton _) (fun hin => absurd hin ht)

end settled

/-- The parts of a map run: what precedes the final check, the final check with
the sentinel it may emit, and `done`. -/
theorem doMapSync_parts (mapFile : Option SourceFile) (cancel : Nat → Bool) :
    ∃ a tail, doMapSync mapFile cancel = a ++ tail ++ [.done] ∧
      (∀ e ∈ a, Plain True e) ∧
      (tail = [.cancelCheck true] ∨
        (WorkerEvent.cancelCheck true ∉ tail ∧ WorkerEvent.done ∉ tail)) ∧
      ((∀ i j, i ≤ j → cancel i = true → cancel j = true) →
        Settled a ∧ (WorkerEvent.cancelCheck true ∈ a → tail = [.cancelCheck true])) := by
  have hempty : ∀ (a : List (WorkerEvent QGCMapFragment)),
      (∀ e ∈ a, Plain True e) → WorkerEvent.cancelCheck true ∉ a →
      ∃ a' tail, a ++ (if cancel 0 = true then [WorkerEvent.cancelCheck true]
          else [.cancelCheck false, .fragment ⟨0, 0, [], 0⟩]) ++ [.done] = a' ++ tail ++ [.done] ∧
        (∀ e ∈ a', Plain True e) ∧
        (tail = [.cancelCheck true] ∨
          (WorkerEvent.cancelCheck true ∉ tail ∧ WorkerEvent.done ∉ tail)) ∧
        ((∀ i j, i ≤ j → cancel i = true → cancel j = true) →
          Settled a' ∧ (WorkerEvent.cancelCheck true ∈ a' → tail = [.cancelCheck true])) := by
    intro a hp hn
    refine ⟨a, _, rfl, hp, ?_, fun _ => ⟨settled_of_no_true hn, fun h => absurd h hn⟩⟩
    split
    · exact Or.inl rfl
    · exact Or.inr (by simp)
  cases mapFile with
  | none =>
    have := hempty [] (by simp) (by simp)
    simpa [doMapSync] using this
  | some f =>
    by_cases hz : quint64 f.size = 0
    · have := hempty [] (by simp) (by simp)
      simpa [doMapSync, hz] using this
    · by_cases ho : f.opens = true
      · refine ⟨.opened true :: (sendLoop (fun sofar bytes segment => QGCMapFragment.mk sofar
          (quint64 f.size) bytes segment) (quint64 f.size) cancel f.reads 0 0 0).1,
          if cancel (sendLoop (fun sofar bytes segment => QGCMapFragment.mk sofar
            (quint64 f.size) bytes segment) (quint64 f.size) cancel f.reads 0 0 0).2 = true
          then [.cancelCheck true] else [.cancelCheck false], ?_, ?_, ?_, ?_⟩
        · simp only [doMapSync, hz, ho, if_false, Bool.not_true, Bool.false_eq_true]
        · intro e he
          simp only [List.mem_cons] at he
          rcases he with rfl | he
          · simp [Plain]
          · exact ⟨(plain_sendLoop _ _ _ _ _ _ _ e he).1, fun _ _ => trivial⟩
        · split
          · exact Or.inl rfl
          · exact Or.inr (by simp)
        · intro hstay
          have hs := settledUpTo_sendLoop (fun sofar bytes segment => QGCMapFragment.mk sofar
            (quint64 f.size) bytes segment) (quint64 f.size) hstay f.reads 0 0 0
          constructor
          · have := settled_append (settled_singleton (.opened true)) hs.2.1
              (fun h => absurd h (by simp))
            simpa using this
          · intro hin
            simp only [List.mem_cons] at hin
            rcases hin with hin | hin
            · cases hin
            · rw [if_pos (hs.2.2 hin)]
      · have := hempty [.opened false] (by simp [Plain]) (by simp)
        simpa [doMapSync, hz, ho] using this

/-- A map run signals `done` exactly once, as its last action. -/
theorem doMapSync_done (mapFile : Option SourceFile) (cancel : Nat → Bool) :
    donesOf (doMapSync mapFile cancel) = 1 ∧
      (doMapSync mapFile cancel).getLast? = some .done := by
  obtain ⟨a, tail, heq, hp, ht, -⟩ := doMapSync_parts mapFile cancel
  rw [heq]
  refine ⟨?_, by simp⟩
  have h1 : donesOf a = 0 := donesOf_eq_zero hp
  have h2 : donesOf tail = 0 := by
    rcases ht with ht | ht
    · rw [ht]; rfl
    · unfold donesOf
      rw [List.length_eq_zero, List.filter_eq_nil_iff]
      intro e he
      cases e <;> first | exact absurd he ht.2 | simp
  rw [donesOf_append, donesOf_append, h1, h2]
  rfl

/-- C9 (cancellation termination).  Take any run of `doLogSync` or `doMapSync`
in which the cancellation flag, once set, stays set.  After the first check at
which the worker sees the flag set it only checks the flag again and signals
`done`: it opens nothing, reads nothing, emits no fragment (no error sentinel
either) and does not sleep.  The relays `_logFragment` and `_mapFragment`
forward nothing to the peer while the flag is set.  And every run, cancelled or
not, signals `done` exactly once, as its last action. -/
theorem C9_cancellation_termination (cancel : Nat → Bool)
    (hstay : ∀ i j, i ≤ j → cancel i = true → cancel j = true) :
    (∀ logs pre post, doLogSync logs cancel = pre ++ .cancelCheck true :: post →
      ∀ e ∈ post, e = .cancelCheck true ∨ e = .done) ∧
    (∀ mapFile pre post, doMapSync mapFile cancel = pre ++ .cancelCheck true :: post →
      ∀ e ∈ post, e = .cancelCheck true ∨ e = .done) ∧
    (∀ logs, donesOf (doLogSync logs cancel) = 1 ∧
      (doLogSync logs cancel).getLast? = some .done) ∧
    (∀ mapFile, donesOf (doMapSync mapFile cancel) = 1 ∧
      (doMapSync mapFile cancel).getLast? = some .done) ∧
    (∀ (s : QGCSyncFilesMobile) fragment, s.cancel = true → _logFragment s fragment = []) ∧
    (∀ (s : QGCSyncFilesMobile) fragment, s.cancel = true → _mapFragment s fragment = []) := by
  refine ⟨?_, ?_, fun logs => doLogSync_done logs cancel,
    fun mapFile => doMapSync_done mapFile cancel, ?_, ?_⟩
  · intro logs
    have hl := settledUpTo_logSyncLoop hstay logs 0
    have : Settled (doLogSync logs cancel) := by
      have h := settled_finish (logSyncLoop cancel logs 0).1
        [.cancelCheck (cancel (logSyncLoop cancel logs 0).2)] hl.2.1 (by cases cancel (logSyncLoop cancel logs 0).2 <;> simp)
        (fun hin => by rw [hl.2.2 hin])
      simpa [doLogSync] using h
    exact this
  · intro mapFile
    obtain ⟨a, tail, heq, -, ht, hs⟩ := doMapSync_parts mapFile cancel
    have : Settled (doMapSync mapFile cancel) := by
      rw [heq]
      exact settled_finish a tail (hs hstay).1 (ht.imp id (fun h => h.1)) (hs hstay).2
    exact this
  · intro s fragment hc
    simp [_logFragment, hc]
  · intro s fragment hc
    simp [_mapFragment, hc]

/-- C9 at a log run over a file of three bytes, read as two bytes and one, in
which the flag is set after the first fragment: the worker sees it at its next
check, checks once more and signals `done`; the third byte is never read. -/
theorem C9_cancellation_termination_witness :
    doLogSync [⟨"/l/a.tlog".toList, true, 3, [[7, 8], [9]]⟩] (fun k => decide (2 ≤ k)) =
      [.cancelCheck false, .opened true, .cancelCheck false, .read [7, 8],
        .fragment ⟨"a.tlog".toList, 2, 3, [7, 8]⟩] ++
        .cancelCheck true :: [.cancelCheck true, .done] ∧
    ∀ e ∈ ([.cancelCheck true, .done] : List (WorkerEvent QGCLogFragment)),
      e = .cancelCheck true ∨ e = .done :=
  ⟨by decide,
    (C9_cancellation_termination (fun k => decide (2 ≤ k))
      (fun i j hij hi => by simp only [decide_eq_true_eq] at *; omega)).1
      [⟨"/l/a.tlog".toList, true, 3, [[7, 8], [9]]⟩]
      [.cancelCheck false, .opened true, .cancelCheck false, .read [7, 8],
        .fragment ⟨"a.tlog".toList, 2, 3, [7, 8]⟩]
      [.cancelCheck true, .done] (by decide)⟩

/-! ## Start of an inbound map transfer -/

/-- C10 fails as stated: with a buffer of three bytes in progress, a fragment
with `current = 5` and sequence number 0 discards that buffer and starts a new
one, and a fragment with `current = 0`, `total = 10` and sequence number 1 is
appended to it. -/
theorem C10_start_is_not_current_zero :
    mapFragmentToMobile ⟨"/m".toList, "/l".toList, fun w n => endsWith n (w.drop 1),
        fun _ => true, fun _ => true, fun _ => true, true, []⟩
      ⟨false, .SyncClone, false, false, some ⟨[1, 2, 3], true⟩, 0, false, []⟩
      ⟨5, 10, [9], 0⟩ =
      (⟨false, .SyncClone, false, false, some ⟨[9], true⟩, 0, false, []⟩,
        [.deleteTemp ⟨[1, 2, 3], true⟩]) ∧
    mapFragmentToMobile ⟨"/m".toList, "/l".toList, fun w n => endsWith n (w.drop 1),
        fun _ => true, fun _ => true, fun _ => true, true, []⟩
      ⟨false, .SyncClone, false, false, some ⟨[1, 2, 3], true⟩, 0, false, []⟩
      ⟨0, 10, [9], 1⟩ =
      (⟨false, .SyncClone, false, false, some ⟨[1, 2, 3, 9], true⟩, 0, false, []⟩, []) := by
  decide

/-- C10 as the code has it.  With the cancellation flag clear, a fragment that
is not a zero/zero sentinel marks the start of a new transfer exactly when its
sequence/progress field is 0, for every value of `current` and `total`: the
existing buffer is discarded if and only if `progress = 0`; then, when the
temporary file can be created, the buffer is a fresh file holding this
fragment's payload only, and there is no buffer when it cannot.  A fragment with
non-zero progress never discards the existing buffer: its payload is appended. -/
theorem C10_start_of_transfer (env : Env) (s : QGCSyncFilesMobile) (hc : s.cancel = false)
    (fragment : QGCMapFragment) (hk : ¬ (fragment.current = 0 ∧ fragment.total = 0)) :
    (∀ b, s.mapFile = some b →
      (Effect.deleteTemp b ∈ (mapFragmentToMobile env s fragment).2 ↔ fragment.progress = 0)) ∧
    (fragment.progress = 0 → env.tempOpens = true →
      (mapFragmentToMobile env s fragment).1.mapFile =
        some (if fragment.total ≤ fragment.current
          then (QTemporaryFile.write ⟨[], true⟩ fragment.data).close
          else QTemporaryFile.write ⟨[], true⟩ fragment.data)) ∧
    (fragment.progress = 0 → env.tempOpens = false →
      (mapFragmentToMobile env s fragment).1.mapFile = none) ∧
    (fragment.progress ≠ 0 → ∀ b, s.mapFile = some b →
      (mapFragmentToMobile env s fragment).1.mapFile =
        some (if fragment.total ≤ fragment.current then (b.write fragment.data).close
          else b.write fragment.data)) := by
  refine ⟨?_, ?_, ?_, ?_⟩
  · intro b hb
    by_cases hp : fragment.progress = 0
    · simp only [hp, iff_true]
      by_cases ht : env.tempOpens = true
      · have h := (mapFragmentToMobile_data env s hc fragment hk ⟨[], true⟩
          (by simp [bufferForData, hp, ht])).2
        rw [h, if_pos hp]
        simp [dropMapFile, hb]
      · unfold mapFragmentToMobile
        rw [if_neg (by simp [hc]), if_neg hk]
        simp [hp, ht, dropMapFile, hb]
    · simp only [hp, iff_false]
      have h := (mapFragmentToMobile_data env s hc fragment hk b
        (by simp [bufferForData, hp, hb])).2
      rw [h, if_neg hp]
      split <;> simp
  · intro hp ht
    rw [(mapFragmentToMobile_data env s hc fragment hk ⟨[], true⟩
      (by simp [bufferForData, hp, ht])).1]
  · intro hp ht
    unfold mapFragmentToMobile
    rw [if_neg (by simp [hc]), if_neg hk]
    simp only [hp, ht, if_true, Bool.not_false]
    unfold dropMapFile
    cases hm : s.mapFile <;> simp [hm]
  · intro hp b hb
    rw [(mapFragmentToMobile_data env s hc fragment hk b (by simp [bufferForData, hp, hb])).1]

/-- C10 as the code has it, at the first fragment a sender emits (`current`
already counts its bytes, sequence number 0) arriving over an old buffer. -/
theorem C10_start_of_transfer_witness :
    Effect.deleteTemp ⟨[1, 2, 3], true⟩ ∈
      (mapFragmentToMobile ⟨"/m".toList, "/l".toList, fun w n => endsWith n (w.drop 1),
        fun _ => true, fun _ => true, fun _ => true, true, []⟩
      ⟨false, .SyncClone, false, false, some ⟨[1, 2, 3], true⟩, 0, false, []⟩
      ⟨5, 10, [9], 0⟩).2 :=
  ((C10_start_of_transfer ⟨"/m".toList, "/l".toList, fun w n => endsWith n (w.drop 1),
      fun _ => true, fun _ => true, fun _ => true, true, []⟩
    ⟨false, .SyncClone, false, false, some ⟨[1, 2, 3], true⟩, 0, false, []⟩ rfl
    ⟨5, 10, [9], 0⟩ (by decide)).1 ⟨[1, 2, 3], true⟩ rfl).2 rfl

/-! ## Peer identity -/

/-- C11 fails on the code.  When no interface qualifies, `macAddress` is left at
the address of the last interface visited, and the test `macAddress.length() > 9`
then takes it for a found address.  With the single interface
`00:00:00:00:00:00` the identifier is `QGCMobile000000|sig`, its suffix cut out
of the placeholder, where the fallback for `qrand() = 123456` is `123456`; the
same with an interface without address before it.  With no interface at all, or
only interfaces without address, the fallback is used. -/
theorem C11_placeholder_address_used :
    _broadcastPresence "QGCMobile".toList "sig".toList ["00:00:00:00:00:00".toList] 123456 [] =
      ("QGCMobile000000|sig".toList, "QGCMobile000000|sig".toList) ∧
    identifierSuffix ["".toList, "00:00:00:00:00:00".toList] 123456 = "000000".toList ∧
    identifierSuffix [] 123456 = "123456".toList ∧
    identifierSuffix ["".toList] 123456 = "123456".toList ∧
    identifierSuffix ["00:00:00:00:00:00".toList, "AA:BB:CC:DD:EE:FF".toList] 123456 =
      "DDEEFF".toList := by
  decide

/-! ## Sender and receiver of a map archive -/

theorem importTasksOf_append (a b : List Effect) :
    importTasksOf (a ++ b) = importTasksOf a ++ importTasksOf b := by
  simp [importTasksOf, List.filterMap_append]

theorem importTasksOf_dropMapFile (s : QGCSyncFilesMobile) :
    importTasksOf (dropMapFile s).2 = [] := by
  unfold dropMapFile
  cases s.mapFile <;> rfl

/-- One data fragment that carries payload, arriving at a receiver whose buffer
at `if(_mapFile)` is the open file `acc`. -/
theorem mapFragmentToMobile_append (env : Env) (s : QGCSyncFilesMobile) (hc : s.cancel = false)
    (fragment : QGCMapFragment) (hcur : fragment.current ≠ 0) (acc : QByteArray)
    (hb : bufferForData env s fragment = some ⟨acc, true⟩) :
    (mapFragmentToMobile env s fragment).1 =
        { s with mapFile := some ⟨acc ++ fragment.data,
            !decide (fragment.total ≤ fragment.current)⟩ } ∧
      importTasksOf (mapFragmentToMobile env s fragment).2 =
        if fragment.total ≤ fragment.current then [(acc ++ fragment.data, s.importReplace)]
        else [] := by
  obtain ⟨h1, h2⟩ := mapFragmentToMobile_data env s hc fragment (fun h => hcur h.1) _ hb
  rw [h1, h2, importTasksOf_append]
  have hd : importTasksOf (if fragment.progress = 0 then (dropMapFile s).2 else []) = [] := by
    split
    · exact importTasksOf_dropMapFile s
    · rfl
  rw [hd]
  by_cases hfin : fragment.total ≤ fragment.current
  · simp [hfin, QTemporaryFile.write, QTemporaryFile.close, importTasksOf]
  · simp [hfin, QTemporaryFile.write, importTasksOf]

/-- The receiver fed with what a never-cancelled map upload loop emits over the
remaining reads of an archive: `acc` is what the buffer holds so far. -/
theorem feed_sendLoop (env : Env) (ht : env.tempOpens = true) (total : Nat)
    (htot : total < 2 ^ 63) (reads : List QByteArray) :
    reads ≠ [] → (∀ b ∈ reads, b ≠ []) →
    ∀ (sofar : Nat) (seg : Int) (k : Nat) (s : QGCSyncFilesMobile) (acc : QByteArray),
      s.cancel = false → sofar + reads.flatten.length = total →
      ((seg = 0 ∧ acc = []) ∨ (0 < seg ∧ s.mapFile = some ⟨acc, true⟩)) →
      (feedMapFragments env s (fragmentsOf (sendLoop
          (fun sofar bytes segment => QGCMapFragment.mk sofar total bytes segment) total
          (fun _ => false) reads sofar seg k).1)).1 =
        { s with mapFile := some ⟨acc ++ reads.flatten, false⟩ } ∧
      (feedMapFragments env s (fragmentsOf (sendLoop
          (fun sofar bytes segment => QGCMapFragment.mk sofar total bytes segment) total
          (fun _ => false) reads sofar seg k).1)).2.map importTasksOf =
        List.replicate (reads.length - 1) [] ++ [[(acc ++ reads.flatten, s.importReplace)]] := by
  induction reads with
  | nil => intro h; exact absurd rfl h
  | cons b rest ih =>
    intro _ hall sofar seg k s acc hc hsum hbuf
    have hb : b ≠ [] := hall b (List.mem_cons_self _ _)
    have hblen : ¬ b.length = 0 := fun h => hb (List.length_eq_zero.1 h)
    rw [List.flatten_cons, List.length_append] at hsum
    have hq : quint64 (sofar + b.length) = sofar + b.length := quint64_of_lt (by omega)
    have hbuffer : bufferForData env s ⟨sofar + b.length, total, b, seg⟩ = some ⟨acc, true⟩ := by
      unfold bufferForData
      rcases hbuf with ⟨h0, ha⟩ | ⟨hpos, hm⟩
      · simp [h0, ha, ht]
      · have : ¬ seg = 0 := by omega
        simp [this, hm]
    obtain ⟨hs1, ht1⟩ := mapFragmentToMobile_append env s hc ⟨sofar + b.length, total, b, seg⟩
      (by simp only; omega) acc hbuffer
    simp only at hs1 ht1
    rw [sendLoop_cons, if_neg (by simp), if_neg hblen, hq]
    cases rest with
    | nil =>
      have hfin : total ≤ sofar + b.length := by
        simp at hsum
        omega
      rw [if_pos hfin]
      simp only [fragmentsOf_cons_cancelCheck, fragmentsOf_cons_read, fragmentsOf_cons_fragment,
        fragmentsOf_nil, feedMapFragments, List.map_cons, List.map_nil]
      rw [hs1, ht1, if_pos hfin]
      simp [hfin]
    | cons b2 rest2 =>
      have hb2 : b2 ≠ [] := hall b2 (by simp)
      have hb2len : 0 < b2.length := List.length_pos.2 hb2
      have hnot : ¬ total ≤ sofar + b.length := by
        rw [List.flatten_cons, List.length_append] at hsum
        omega
      have hrec := ih (by simp) (fun x hx => hall x (List.mem_cons_of_mem _ hx))
      rw [if_neg hnot]
      have hstep : ∀ k2, feedMapFragments env s
          (⟨sofar + b.length, total, b, seg⟩ :: fragmentsOf (sendLoop
            (fun sofar bytes segment => QGCMapFragment.mk sofar total bytes segment) total
            (fun _ => false) (b2 :: rest2) (sofar + b.length) (seg + 1) k2).1) =
          ({ s with mapFile := some ⟨acc ++ (b :: b2 :: rest2).flatten, false⟩ },
            (mapFragmentToMobile env s ⟨sofar + b.length, total, b, seg⟩).2 ::
              (feedMapFragments env
                { s with mapFile := some ⟨acc ++ b, true⟩ } (fragmentsOf (sendLoop
                (fun sofar bytes segment => QGCMapFragment.mk sofar total bytes segment) total
                (fun _ => false) (b2 :: rest2) (sofar + b.length) (seg + 1) k2).1)).2) := by
        intro k2
        have h := hrec (sofar + b.length) (seg + 1) k2
          { s with mapFile := some ⟨acc ++ b, true⟩ } (acc ++ b) hc (by omega)
          (Or.inr ⟨by rcases hbuf with ⟨h0, _⟩ | ⟨hpos, _⟩ <;> omega, rfl⟩)
        rw [feedMapFragments]
        rw [hs1]
        simp only [hnot, decide_False, Bool.not_false]
        rw [h.1]
        simp [List.append_assoc]
      have htasks : ∀ k2, (feedMapFragments env { s with mapFile := some ⟨acc ++ b, true⟩ }
          (fragmentsOf (sendLoop
            (fun sofar bytes segment => QGCMapFragment.mk sofar total bytes segment) total
            (fun _ => false) (b2 :: rest2) (sofar + b.length) (seg + 1) k2).1)).2.map
            importTasksOf =
          List.replicate rest2.length [] ++
            [[(acc ++ (b :: b2 :: rest2).flatten, s.importReplace)]] := by
        intro k2
        have h := hrec (sofar + b.length) (seg + 1) k2
          { s with mapFile := some ⟨acc ++ b, true⟩ } (acc ++ b) hc (by omega)
          (Or.inr ⟨by rcases hbuf with ⟨h0, _⟩ | ⟨hpos, _⟩ <;> omega, rfl⟩)
        rw [h.2]
        simp [List.append_assoc]
      split
      · simp only [fragmentsOf_cons_cancelCheck, fragmentsOf_cons_read,
          fragmentsOf_cons_fragment, fragmentsOf_append, fragmentsOf_throttle, List.nil_append]
        rw [hstep]
        refine ⟨rfl, ?_⟩
        simp only [List.map_cons, htasks, ht1, if_neg hnot]
        simp [List.replicate_succ]
      · simp only [fragmentsOf_cons_cancelCheck, fragmentsOf_cons_read,
          fragmentsOf_cons_fragment]
        rw [hstep]
        refine ⟨rfl, ?_⟩
        simp only [List.map_cons, htasks, ht1, if_neg hnot]
        simp [List.replicate_succ]

/-- C12 (sender/receiver round trip).  Take an archive that opens, whose reads
are all non-empty and together return its bytes (`size` of them, below
`2 ^ 63`), a sender whose cancellation flag is never seen set, and a receiver
with the flag clear, able to create its temporary file, in any prior buffer
state.  Feeding the fragments `doMapSync` emits, in order, to
`mapFragmentToMobile` leaves a closed import buffer that holds exactly the bytes
of the archive; there is one fragment per read; and the import task is queued
exactly once, with that content, by the last fragment and by no earlier one. -/
theorem C12_round_trip (env : Env) (s : QGCSyncFilesMobile) (f : SourceFile)
    (hc : s.cancel = false) (ht : env.tempOpens = true) (hopen : f.opens = true)
    (hne : f.reads ≠ []) (hall : ∀ b ∈ f.reads, b ≠ [])
    (hsize : f.size = f.reads.flatten.length) (hlt : f.size < 2 ^ 63) :
    (feedMapFragments env s (fragmentsOf (doMapSync (some f) (fun _ => false)))).1.mapFile =
      some ⟨f.reads.flatten, false⟩ ∧
    (fragmentsOf (doMapSync (some f) (fun _ => false))).length = f.reads.length ∧
    (feedMapFragments env s (fragmentsOf (doMapSync (some f) (fun _ => false)))).2.map
        importTasksOf =
      List.replicate (f.reads.length - 1) [] ++ [[(f.reads.flatten, s.importReplace)]] := by
  have hpos : f.size ≠ 0 := by
    cases hr : f.reads with
    | nil => exact absurd hr hne
    | cons b rest =>
      have hb : b ≠ [] := hall b (by rw [hr]; exact List.mem_cons_self _ _)
      have := List.length_pos.2 hb
      rw [hsize, hr, List.flatten_cons, List.length_append]
      omega
  have hfr : fragmentsOf (doMapSync (some f) (fun _ => false)) =
      fragmentsOf (sendLoop (fun sofar bytes segment => QGCMapFragment.mk sofar f.size bytes
        segment) f.size (fun _ => false) f.reads 0 0 0).1 := by
    simp [doMapSync, quint64_of_lt hlt, hpos, hopen]
  have hfeed := feed_sendLoop env ht f.size hlt f.reads hne hall 0 0 0 s [] hc
    (by rw [hsize]; omega) (Or.inl ⟨rfl, rfl⟩)
  rw [List.nil_append] at hfeed
  have hlen : ∀ (t : QGCSyncFilesMobile) (frs : List QGCMapFragment),
      (feedMapFragments env t frs).2.length = frs.length := by
    intro t frs
    induction frs generalizing t with
    | nil => rfl
    | cons x xs ih => simp [feedMapFragments, ih]
  rw [hfr]
  refine ⟨by rw [hfeed.1], ?_, hfeed.2⟩
  have h := congrArg List.length hfeed.2
  rw [List.length_map, hlen] at h
  rw [h]
  have : 0 < f.reads.length := List.length_pos.2 hne
  simp
  omega

/-- C12 at an archive of three bytes read as two bytes and one, received over an
old buffer: the buffer ends as the three bytes, closed, and only the second
fragment queues the import. -/
theorem C12_round_trip_witness :
    (feedMapFragments ⟨"/m".toList, "/l".toList, fun w n => endsWith n (w.drop 1),
        fun _ => true, fun _ => true, fun _ => true, true, []⟩
      ⟨false, .SyncClone, false, false, some ⟨[9], true⟩, 0, true, []⟩
      (fragmentsOf (doMapSync (some ⟨['a'], true, 3, [[1, 2], [3]]⟩)
        (fun _ => false)))).1.mapFile = some ⟨[1, 2, 3], false⟩ ∧
    (feedMapFragments ⟨"/m".toList, "/l".toList, fun w n => endsWith n (w.drop 1),
        fun _ => true, fun _ => true, fun _ => true, true, []⟩
      ⟨false, .SyncClone, false, false, some ⟨[9], true⟩, 0, true, []⟩
      (fragmentsOf (doMapSync (some ⟨['a'], true, 3, [[1, 2], [3]]⟩)
        (fun _ => false)))).2.map importTasksOf = [[], [([1, 2, 3], true)]] :=
  ⟨(C12_round_trip ⟨"/m".toList, "/l".toList, fun w n => endsWith n (w.drop 1),
        fun _ => true, fun _ => true, fun _ => true, true, []⟩
      ⟨false, .SyncClone, false, false, some ⟨[9], true⟩, 0, true, []⟩
      ⟨['a'], true, 3, [[1, 2], [3]]⟩ rfl rfl rfl (by decide) (by decide) (by decide)
      (by norm_num)).1,
    (C12_round_trip ⟨"/m".toList, "/l".toList, fun w n => endsWith n (w.drop 1),
        fun _ => true, fun _ => true, fun _ => true, true, []⟩
      ⟨false, .SyncClone, false, false, some ⟨[9], true⟩, 0, true, []⟩
      ⟨['a'], true, 3, [[1, 2], [3]]⟩ rfl rfl rfl (by decide) (by decide) (by decide)
      (by norm_num)).2.2⟩

/-! ## A map request while a map transfer is active -/

/-- C13 fails on the code.  `requestMapTilesFromMobile` assigns `_mapFile` a new
temporary file before it tests `_mapWorker`, and the busy path deletes that file
and sets `_mapFile` to null.  With a map worker active and the export pending,
the rejected request leaves `_mapWorker` as it was but `_mapFile` null, so
`_mapExportDone`, which would have started the upload, now does nothing. -/
theorem C13_busy_request_clears_map_file :
    requestMapTilesFromMobile ⟨"/m".toList, "/l".toList, fun w n => endsWith n (w.drop 1),
        fun _ => true, fun _ => true, fun _ => true, true, ["set1".toList]⟩
      ⟨false, .SyncClone, false, true, some ⟨[1, 2, 3], false⟩, 0, false, []⟩ ["set1".toList] =
      (⟨false, .SyncClone, false, true, none, 0, false, []⟩,
        [.mapFragment ⟨0, 0, [], 0⟩, .deleteTemp ⟨[], true⟩]) ∧
    _mapExportDone ⟨false, .SyncClone, false, true, some ⟨[1, 2, 3], false⟩, 0, false, []⟩ =
      [.threadStart, .doMapSync ⟨[1, 2, 3], false⟩] ∧
    _mapExportDone (requestMapTilesFromMobile ⟨"/m".toList, "/l".toList,
        fun w n => endsWith n (w.drop 1), fun _ => true, fun _ => true, fun _ => true, true,
        ["set1".toList]⟩
      ⟨false, .SyncClone, false, true, some ⟨[1, 2, 3], false⟩, 0, false, []⟩
      ["set1".toList]).1 = [] := by
  decide

end QGCSync
